import Mathlib

/-!
# Lindstrom-Turk vertex placement: constraint accumulator and solver

A shallow embedding of
`Surface_mesh_simplification/Policies/Detail/Lindstrom_Turk_impl.h`.

The number type `FT` is taken to be the rationals (exact arithmetic), so the
conversion `to_double` that the source applies before comparing is the
identity on values.  The counter `n` of the constraint system is the C++ `int`
and is embedded as `Int`.
-/

namespace LT

/-! ## Geometry primitives -/

/-- Exact field type of the kernel. -/
abbrev FT := ℚ

/-- Cartesian 3-vector (the source's `CVector`). -/
structure CVector where
  x : FT
  y : FT
  z : FT
  deriving DecidableEq, Repr

/-- Kernel point; `get_point` of a vertex yields one of these. -/
structure Point where
  x : FT
  y : FT
  z : FT
  deriving DecidableEq, Repr

/-- The 3x3 matrix of the kernel (the source's `CMatrix`), stored by rows. -/
structure CMatrix where
  r0 : CVector
  r1 : CVector
  r2 : CVector
  deriving DecidableEq, Repr

/-- The source's `NULL_VECTOR`. -/
def NULL_VECTOR : CVector := ⟨0, 0, 0⟩

/-- The source's `NULL_MATRIX`. -/
def NULL_MATRIX : CMatrix := ⟨NULL_VECTOR, NULL_VECTOR, NULL_VECTOR⟩

/-- The source's `ORIGIN`. -/
def ORIGIN : Point := ⟨0, 0, 0⟩

/-- Modelled from the spec: the kernel's dot product of two vectors
(`u * v` in the source), which is not part of the source files. -/
def dot (u v : CVector) : FT := u.x * v.x + u.y * v.y + u.z * v.z

/-- Modelled from the spec: the kernel's vector addition (`u + v`). -/
def vadd (u v : CVector) : CVector := ⟨u.x + v.x, u.y + v.y, u.z + v.z⟩

/-- Modelled from the spec: the kernel's scaling of a vector by a scalar
(`k * v` and `v * k`). -/
def smul (k : FT) (v : CVector) : CVector := ⟨k * v.x, k * v.y, k * v.z⟩

/-- Modelled from the spec: the kernel's cross product of two vectors. -/
def cross_product (u v : CVector) : CVector :=
  ⟨u.y * v.z - u.z * v.y, u.z * v.x - u.x * v.z, u.x * v.y - u.y * v.x⟩

/-- Modelled from the spec: difference of two points, already converted with
`toCVector` (`toCVector(p - q)`). -/
def psub (p q : Point) : CVector := ⟨p.x - q.x, p.y - q.y, p.z - q.z⟩

/-- Modelled from the spec: the point-based analogue of the cross product,
taken against the fixed origin (`Point_cross_product`). -/
def Point_cross_product (p q : Point) : CVector :=
  cross_product (psub p ORIGIN) (psub q ORIGIN)

/-- Modelled from the spec: the kernel's squared distance of two points. -/
def squared_distance (p q : Point) : FT := dot (psub p q) (psub p q)

/-- Modelled from the spec: matrix sum (`H += M`). -/
def madd (M N : CMatrix) : CMatrix :=
  ⟨vadd M.r0 N.r0, vadd M.r1 N.r1, vadd M.r2 N.r2⟩

/-- Modelled from the spec: matrix scaled by a scalar (`H *= k`, `k * M`). -/
def mscale (k : FT) (M : CMatrix) : CMatrix :=
  ⟨smul k M.r0, smul k M.r1, smul k M.r2⟩

/-- Modelled from the spec: the direct (outer) product of two vectors,
`u (x) v`, with entry `(i, j)` equal to `u_i * v_j`. -/
def direct_product (u v : CVector) : CMatrix :=
  ⟨smul u.x v, smul u.y v, smul u.z v⟩

/-- Modelled from the spec: matrix times vector (`H * Q`). -/
def mulVec (M : CMatrix) (v : CVector) : CVector :=
  ⟨dot M.r0 v, dot M.r1 v, dot M.r2 v⟩

/-- Determinant of a 3x3 matrix, as the triple product of its rows. -/
def determinant (M : CMatrix) : FT := dot (cross_product M.r0 M.r1) M.r2

/-- Modelled from the spec: the kernel's `inverse_matrix`, "matrix inversion
(returns absent if singular)".  For a regular matrix the result is the
inverse, written out as the adjugate divided by the determinant. -/
def inverse_matrix (M : CMatrix) : Option CMatrix :=
  if determinant M = 0 then none
  else
    let d := determinant M
    let c0 := cross_product M.r1 M.r2
    let c1 := cross_product M.r2 M.r0
    let c2 := cross_product M.r0 M.r1
    some ⟨⟨c0.x / d, c1.x / d, c2.x / d⟩,
          ⟨c0.y / d, c1.y / d, c2.y / d⟩,
          ⟨c0.z / d, c1.z / d, c2.z / d⟩⟩

/-- Modelled from the spec: the product `b * Ai` of the solver, "v = A⁻¹·b
(right-multiplied)": component `i` of the result is row `i` of `Ai`
applied to `b`. -/
def vecMul (b : CVector) (Ai : CMatrix) : CVector :=
  ⟨dot b Ai.r0, dot b Ai.r1, dot b Ai.r2⟩

/-- Under exact arithmetic the conversion to a comparison value keeps the
value.  The properties stated over exact arithmetic use this conversion; the
structure `DoubleModel` below takes the conversion, and the arithmetic of
doubles, as parameters instead. -/
def to_double (q : FT) : FT := q

/-! ## Constraint system -/

/-- The source's `Constrians`: the count `n`, the matrix `A` of accepted rows
and the vector `b` of accepted scalars. -/
structure Constrians where
  n : Int
  A : CMatrix
  b : CVector
  deriving DecidableEq, Repr

/-- The freshly constructed, empty system. -/
def Constrians.empty : Constrians := ⟨0, NULL_MATRIX, NULL_VECTOR⟩

/-- The two thresholds `squared_cos_alpha()` and `squared_sin_alpha()` of the
filter; their values are defined outside the source files and are kept as
parameters. -/
structure Alpha where
  squared_cos_alpha : FT
  squared_sin_alpha : FT
  deriving DecidableEq, Repr

/-- The decision `lAddIt` of `Add_if_alpha_compatible`, computed once the
squared length `slai` of the candidate is known to be positive. -/
def lAddIt (al : Alpha) (cs : Constrians) (Ai : CVector) : Bool :=
  let slai := to_double (dot Ai Ai)
  if cs.n = 1 then
    let d01 := dot cs.A.r0 Ai
    let sla0 := to_double (dot cs.A.r0 cs.A.r0)
    let sd01 := to_double (d01 * d01)
    if sd01 > sla0 * slai * al.squared_cos_alpha then false else true
  else if cs.n = 2 then
    let N := cross_product cs.A.r0 cs.A.r1
    let dc012 := dot N Ai
    let slc01 := to_double (dot N N)
    let sdc012 := to_double (dc012 * dc012)
    if sdc012 ≤ slc01 * slai * al.squared_sin_alpha then false else true
  else true

/-- The `switch (n)` of `Add_if_alpha_compatible` followed by `++ n`: the row
is stored only in the cases 0, 1 and 2, the count is incremented in every
case. -/
def store (cs : Constrians) (Ai : CVector) (bi : FT) : Constrians :=
  if cs.n = 0 then
    { n := cs.n + 1, A := { cs.A with r0 := Ai }, b := ⟨bi, cs.b.y, cs.b.z⟩ }
  else if cs.n = 1 then
    { n := cs.n + 1, A := { cs.A with r1 := Ai }, b := ⟨cs.b.x, bi, cs.b.z⟩ }
  else if cs.n = 2 then
    { n := cs.n + 1, A := { cs.A with r2 := Ai }, b := ⟨cs.b.x, cs.b.y, bi⟩ }
  else
    { cs with n := cs.n + 1 }

/-- The source's `Constrians::Add_if_alpha_compatible`. -/
def Add_if_alpha_compatible (al : Alpha) (cs : Constrians) (Ai : CVector) (bi : FT) :
    Constrians :=
  let slai := to_double (dot Ai Ai)
  if slai > 0 then
    if lAddIt al cs Ai then store cs Ai bi else cs
  else cs

/-- The source's `index_of_max_component`. -/
def index_of_max_component (v : CVector) : Nat :=
  let i0 : Nat := 0
  let max0 := v.x
  let s1 : Nat × FT := if max0 < v.y then (1, v.y) else (i0, max0)
  let s2 : Nat × FT := if s1.2 < v.z then (2, v.z) else s1
  s2.1

/-- Failure of a `CGAL_precondition`: a programming-error fault. -/
inductive Fault where
  | precondition_violated
  deriving DecidableEq, Repr

/-- The vector `Q0` that `Add_from_gradient` builds from the accepted row
`A0` when `n == 1`.  The source's `switch` has the cases 0, 1 and 2 only;
`Q0` is left as constructed for any other value. -/
def gradient_Q0 (A0 : CVector) : CVector :=
  let A02 : CVector := ⟨A0.x * A0.x, A0.y * A0.y, A0.z * A0.z⟩
  match index_of_max_component A02 with
  | 0 => ⟨-A0.z / A0.x, 0, 1⟩
  | 1 => ⟨0, -A0.z / A0.y, 1⟩
  | 2 => ⟨1, 0, -A0.x / A0.z⟩
  | _ => NULL_VECTOR

/-- The source's `Constrians::Add_from_gradient`; the precondition
`n >= 0 && n <= 2` is checked first. -/
def Add_from_gradient (al : Alpha) (cs : Constrians) (H : CMatrix) (c : CVector) :
    Except Fault Constrians :=
  if cs.n ≥ 0 ∧ cs.n ≤ 2 then
    if cs.n = 0 then
      let s1 := Add_if_alpha_compatible al cs H.r0 (-c.x)
      let s2 := Add_if_alpha_compatible al s1 H.r1 (-c.y)
      .ok (Add_if_alpha_compatible al s2 H.r2 (-c.z))
    else if cs.n = 1 then
      let A0 := cs.A.r0
      let Q0 := gradient_Q0 A0
      let Q1 := cross_product A0 Q0
      let A1 := mulVec H Q0
      let A2 := mulVec H Q1
      let b1 := -(dot Q0 c)
      let b2 := -(dot Q1 c)
      let s1 := Add_if_alpha_compatible al cs A1 b1
      .ok (Add_if_alpha_compatible al s1 A2 b2)
    else
      let Q := cross_product cs.A.r0 cs.A.r1
      let A2 := mulVec H Q
      let b2 := -(dot Q c)
      .ok (Add_if_alpha_compatible al cs A2 b2)
  else .error Fault.precondition_violated

/-! ## Constraint families -/

/-- A triangle of the star of the collapsing edge, encoded as its normal
vector and normal scalar. -/
structure Triangle where
  NormalV : CVector
  NormalL : FT
  deriving DecidableEq, Repr

/-- The cached local boundary `o -> p -> q -> r`: three edge vectors and the
three cross products of consecutive points. -/
structure Boundary where
  op : CVector
  opN : CVector
  pq : CVector
  pqN : CVector
  qr : CVector
  qrN : CVector
  deriving DecidableEq, Repr

/-- The weights of `mParams`. -/
structure Params where
  BoundaryWeight : FT
  VolumeWeight : FT
  deriving DecidableEq, Repr

/-- The source's `Get_triangle`, on the positions of the three vertices. -/
def Get_triangle (p0 p1 p2 : Point) : Triangle :=
  let v01 := psub p1 p0
  let v02 := psub p2 p0
  let lNormalV := cross_product v01 v02
  let lNormalL := dot (Point_cross_product p0 p1) (psub p2 ORIGIN)
  ⟨lNormalV, lNormalL⟩

/-- The source's `Add_boundary_preservation_constrians`.  The function
`LT_product` lives outside the source files and is a parameter. -/
def Add_boundary_preservation_constrians (LT_product : CVector → CMatrix) (al : Alpha)
    (cs : Constrians) (aBdry : Boundary) : Except Fault Constrians :=
  let e1 := vadd (vadd aBdry.op aBdry.pq) aBdry.qr
  let e3 := vadd (vadd aBdry.opN aBdry.pqN) aBdry.qrN
  let H := LT_product e1
  let c := cross_product e1 e3
  Add_from_gradient al cs H c

/-- The pair `(lSumV, lSumL)` after the loop of
`Add_volume_preservation_constrians`. -/
def volume_sums (aTriangles : List Triangle) : CVector × FT :=
  aTriangles.foldl (fun s t => (vadd s.1 t.NormalV, s.2 + t.NormalL)) (NULL_VECTOR, 0)

/-- The source's `Add_volume_preservation_constrians`. -/
def Add_volume_preservation_constrians (al : Alpha) (cs : Constrians)
    (aTriangles : List Triangle) : Constrians :=
  let s := volume_sums aTriangles
  Add_if_alpha_compatible al cs s.1 s.2

/-- The pair `(H, c)` after the volume-optimization loop of
`Add_boundary_and_volume_optimization_constrians`. -/
def volume_optimization_sums (aTriangles : List Triangle) : CMatrix × CVector :=
  aTriangles.foldl
    (fun s lTri =>
      (madd s.1 (direct_product lTri.NormalV lTri.NormalV),
       vadd s.2 (smul lTri.NormalL lTri.NormalV)))
    (NULL_MATRIX, NULL_VECTOR)

/-- The gradient `(H, c)` that `Add_boundary_and_volume_optimization_constrians`
passes to `Add_from_gradient`; `p` and `q` are the positions of the collapsing
vertices. -/
def boundary_and_volume_gradient (LT_product : CVector → CMatrix) (mParams : Params)
    (p q : Point) (aBdry : Option Boundary) (aTriangles : List Triangle) :
    CMatrix × CVector :=
  let s := volume_optimization_sums aTriangles
  match aBdry with
  | some bd =>
    let Hb := madd (madd (LT_product bd.op) (LT_product bd.pq)) (LT_product bd.qr)
    let cb := vadd (vadd (cross_product bd.op bd.opN) (cross_product bd.pq bd.pqN))
      (cross_product bd.qr bd.qrN)
    let lBoundaryWeight := (9 * mParams.BoundaryWeight * squared_distance p q) / 10
    let H := mscale mParams.VolumeWeight s.1
    let c := smul mParams.VolumeWeight s.2
    (madd H (mscale lBoundaryWeight Hb), vadd c (smul lBoundaryWeight cb))
  | none => s

/-- The source's `Add_boundary_and_volume_optimization_constrians`. -/
def Add_boundary_and_volume_optimization_constrians (LT_product : CVector → CMatrix)
    (al : Alpha) (mParams : Params) (p q : Point) (cs : Constrians)
    (aBdry : Option Boundary) (aTriangles : List Triangle) : Except Fault Constrians :=
  let g := boundary_and_volume_gradient LT_product mParams p q aBdry aTriangles
  Add_from_gradient al cs g.1 g.2

/-- The source's `Add_shape_optimization_constrians`, on the positions of the
link's vertices. -/
def Add_shape_optimization_constrians (al : Alpha) (cs : Constrians) (aLink : List Point) :
    Except Fault Constrians :=
  let s : FT := (aLink.length : FT)
  let H : CMatrix := ⟨⟨s, 0, 0⟩, ⟨0, s, 0⟩, ⟨0, 0, s⟩⟩
  let c := aLink.foldl (fun c p => vadd c (psub ORIGIN p)) NULL_VECTOR
  Add_from_gradient al cs H c

/-! ## Placement -/

/-- What the constructor reads from the mesh before it accumulates
constraints: the positions of `P` and `Q`, the local boundary (present exactly
when the collapsing edge is a border edge), the triangles and the positions of
the link's vertices. -/
structure Neighborhood where
  p : Point
  q : Point
  lBdry : Option Boundary
  lTriangles : List Triangle
  lLink : List Point
  deriving DecidableEq, Repr

/-- The accumulation pass of the constructor `LindstromTurkImpl`: the four
families in order, each of the last three guarded by `n < 3`. -/
def accumulate (LT_product : CVector → CMatrix) (al : Alpha) (mParams : Params)
    (nb : Neighborhood) : Except Fault Constrians :=
  let c1 : Except Fault Constrians :=
    match nb.lBdry with
    | some bd => Add_boundary_preservation_constrians LT_product al Constrians.empty bd
    | none => .ok Constrians.empty
  match c1 with
  | .error e => .error e
  | .ok c1 =>
    let c2 := if c1.n < 3 then Add_volume_preservation_constrians al c1 nb.lTriangles else c1
    let c3 : Except Fault Constrians :=
      if c2.n < 3 then
        Add_boundary_and_volume_optimization_constrians LT_product al mParams nb.p nb.q c2
          nb.lBdry nb.lTriangles
      else .ok c2
    match c3 with
    | .error e => .error e
    | .ok c3 =>
      if c3.n < 3 then Add_shape_optimization_constrians al c3 nb.lLink else .ok c3

/-- The solving step of the constructor: `lVertexPoint`, present when `n == 3`
and `inverse_matrix` returns a matrix. -/
def solve (cs : Constrians) : Option Point :=
  if cs.n = 3 then
    match inverse_matrix cs.A with
    | some Ai =>
      let v := vecMul cs.b Ai
      some ⟨v.x, v.y, v.z⟩
    | none => none
  else none

/-- The placement computed by the constructor `LindstromTurkImpl`. -/
def LindstromTurkImpl (LT_product : CVector → CMatrix) (al : Alpha) (mParams : Params)
    (nb : Neighborhood) : Except Fault (Option Point) :=
  match accumulate LT_product al mParams nb with
  | .error e => .error e
  | .ok cs => .ok (solve cs)

/-! ## Indexed access, used to state properties of rows and components -/

/-- Row `i` of a matrix (`i` in 0..2). -/
def rowAt (M : CMatrix) (i : Int) : CVector :=
  if i = 0 then M.r0 else if i = 1 then M.r1 else M.r2

/-- Component `i` of a vector (`i` in 0..2). -/
def compAt (v : CVector) (i : Int) : FT :=
  if i = 0 then v.x else if i = 1 then v.y else v.z

/-- Sum of a list of vectors. -/
def vsum : List CVector → CVector
  | [] => NULL_VECTOR
  | v :: vs => vadd v (vsum vs)

/-- Sum of a list of matrices. -/
def msum : List CMatrix → CMatrix
  | [] => NULL_MATRIX
  | M :: Ms => madd M (msum Ms)

/-! ## Reachable systems -/

/-- The constraint systems reachable from the empty system by calls of
`Add_if_alpha_compatible` and of `Add_from_gradient` (the latter when its
precondition holds, so that it returns a system). -/
inductive Reachable (al : Alpha) : Constrians → Prop
  | empty : Reachable al Constrians.empty
  | add_if (cs : Constrians) (Ai : CVector) (bi : FT) :
      Reachable al cs → Reachable al (Add_if_alpha_compatible al cs Ai bi)
  | from_gradient (cs : Constrians) (H : CMatrix) (c : CVector) (r : Constrians) :
      Reachable al cs → Add_from_gradient al cs H c = .ok r → Reachable al r

/-- The alpha-compatibility of the accepted rows: the tests that held when
rows 0, 1 and 2 were stored. -/
def Compatible (al : Alpha) (cs : Constrians) : Prop :=
  0 ≤ cs.n ∧
  (1 ≤ cs.n → 0 < dot cs.A.r0 cs.A.r0) ∧
  (2 ≤ cs.n → dot cs.A.r0 cs.A.r1 * dot cs.A.r0 cs.A.r1 ≤
    dot cs.A.r0 cs.A.r0 * dot cs.A.r1 cs.A.r1 * al.squared_cos_alpha) ∧
  (3 ≤ cs.n →
    dot (cross_product cs.A.r0 cs.A.r1) (cross_product cs.A.r0 cs.A.r1) * dot cs.A.r2 cs.A.r2 *
        al.squared_sin_alpha <
      dot (cross_product cs.A.r0 cs.A.r1) cs.A.r2 * dot (cross_product cs.A.r0 cs.A.r1) cs.A.r2)

/-! ## Auxiliary notions for the accumulation pass -/

/-- Row 0 and its scalar, once accepted in `a`, are still those of `b`. -/
def KeepsRow0 (a b : Constrians) : Prop :=
  1 ≤ a.n → 1 ≤ b.n ∧ b.A.r0 = a.A.r0 ∧ b.b.x = a.b.x

/-- Modelled from the spec: an instance of the parameter `LT_product` in the
shape the spec describes ("outer-product-like", "a rank-deficient matrix
encoding alignment with e1"): `|u|^2 I - u (x) u`, whose kernel is the line of
`u`.  It only serves to evaluate the families on concrete inputs. -/
def LT_product_model (u : CVector) : CMatrix :=
  ⟨⟨u.y * u.y + u.z * u.z, -(u.x * u.y), -(u.x * u.z)⟩,
   ⟨-(u.x * u.y), u.x * u.x + u.z * u.z, -(u.y * u.z)⟩,
   ⟨-(u.x * u.z), -(u.y * u.z), u.x * u.x + u.y * u.y⟩⟩

/-! ## Example inputs -/

/-- The local boundary of the edge `p = (1,0,0)`, `q = (0,1,0)` on a
three-edge border loop `o -> p -> q -> o` with `o = (0,0,0)`: the end `r` of
the chain is `o` again, so the three edge vectors sum to zero. -/
def hole_boundary : Boundary :=
  { op := psub ⟨1, 0, 0⟩ ⟨0, 0, 0⟩
    opN := Point_cross_product ⟨1, 0, 0⟩ ⟨0, 0, 0⟩
    pq := psub ⟨0, 1, 0⟩ ⟨1, 0, 0⟩
    pqN := Point_cross_product ⟨0, 1, 0⟩ ⟨1, 0, 0⟩
    qr := psub ⟨0, 0, 0⟩ ⟨0, 1, 0⟩
    qrN := Point_cross_product ⟨0, 0, 0⟩ ⟨0, 1, 0⟩ }

/-- A neighbourhood of the border edge `p q` of `hole_boundary`, with the one
triangle `p, q, (0,0,1)` and a link of two vertices. -/
def hole_neighborhood : Neighborhood :=
  { p := ⟨1, 0, 0⟩
    q := ⟨0, 1, 0⟩
    lBdry := some hole_boundary
    lTriangles := [Get_triangle ⟨1, 0, 0⟩ ⟨0, 1, 0⟩ ⟨0, 0, 1⟩]
    lLink := [⟨0, 0, 0⟩, ⟨0, 0, 1⟩] }

/-- Handle of a mesh vertex. -/
abbrev vertex_descriptor := Nat

/-- Handle of a directed edge (halfedge) of the mesh. -/
abbrev edge_descriptor := Nat

/-- Modelled from the spec: the read-only operations consumed from the mesh
collaborator (`target`, `opposite`, `next_edge`, `next_edge_ccw`,
`next_edge_cw`, `is_border`); the mesh itself is an input of the
extraction. -/
structure TSM where
  target : edge_descriptor → vertex_descriptor
  opposite_edge : edge_descriptor → edge_descriptor
  next_edge : edge_descriptor → edge_descriptor
  next_edge_ccw : edge_descriptor → edge_descriptor
  next_edge_cw : edge_descriptor → edge_descriptor
  is_border : edge_descriptor → Bool

/-- An entry of `rTriangles`, recorded as the triple of vertices that the
source hands to `Get_triangle`, in that order. -/
abbrev Facet := vertex_descriptor × vertex_descriptor × vertex_descriptor

/-- The `Triangles` of the source: `Get_triangle` on the points of each
recorded triple. -/
def triangles_of (get_point : vertex_descriptor → Point) (l : List Facet) : List Triangle :=
  l.map fun f => Get_triangle (get_point f.1) (get_point f.2.1) (get_point f.2.2)

/-- The source's `Extract_triangle`. -/
def Extract_triangle (m : TSM) (v0 v1 v2 : vertex_descriptor) (e02 : edge_descriptor)
    (rTriangles : List Facet) : List Facet :=
  if m.target (m.next_edge e02) = v1 then
    if ¬ m.is_border e02 then rTriangles ++ [(v0, v2, v1)] else rTriangles
  else
    if ¬ m.is_border (m.opposite_edge e02) then rTriangles ++ [(v0, v1, v2)] else rTriangles

/-- The first `do ... while` loop of `Extract_triangles_and_link`, around `mP`;
the state is `(e02, v1, rLink, rTriangles)` and `none` means that the fuel ran
out before the loop ended. -/
def extract_around_P (m : TSM) (mP mQ : vertex_descriptor) (mP_Q : edge_descriptor) :
    Nat → edge_descriptor × vertex_descriptor × List vertex_descriptor × List Facet →
      Option (List vertex_descriptor × List Facet)
  | 0, _ => none
  | fuel + 1, (e02, v1, rLink, rTriangles) =>
    let e02 := m.next_edge_ccw e02
    let v2 := m.target e02
    let rLink := if v2 ≠ mQ then rLink ++ [v2] else rLink
    let rTriangles := Extract_triangle m mP v1 v2 e02 rTriangles
    if e02 ≠ mP_Q then extract_around_P m mP mQ mP_Q fuel (e02, v2, rLink, rTriangles)
    else some (rLink, rTriangles)

/-- The second `do ... while` loop of `Extract_triangles_and_link`, around
`mQ`; it advances with `next_edge_cw`, as the source does. -/
def extract_around_Q (m : TSM) (mQ vt : vertex_descriptor) (mQ_P : edge_descriptor) :
    Nat → edge_descriptor × vertex_descriptor × List vertex_descriptor × List Facet →
      Option (List vertex_descriptor × List Facet)
  | 0, _ => none
  | fuel + 1, (e02, v1, rLink, rTriangles) =>
    let v2 := m.target e02
    let rLink := if v2 ≠ vt then rLink ++ [v2] else rLink
    let rTriangles := Extract_triangle m mQ v1 v2 e02 rTriangles
    let e02 := m.next_edge_cw e02
    if e02 ≠ mQ_P then extract_around_Q m mQ vt mQ_P fuel (e02, v2, rLink, rTriangles)
    else some (rLink, rTriangles)

/-- The source's `Extract_triangles_and_link`: the result is
`(rLink, rTriangles)`, each loop running on the given fuel. -/
def Extract_triangles_and_link (m : TSM) (mP mQ : vertex_descriptor)
    (mP_Q mQ_P : edge_descriptor) (fuel : Nat) :
    Option (List vertex_descriptor × List Facet) :=
  match extract_around_P m mP mQ mP_Q fuel (mP_Q, mQ, [], []) with
  | none => none
  | some (rLink, rTriangles) =>
    let vt := m.target (m.next_edge_cw mQ_P)
    let e02 := m.next_edge_ccw mQ_P
    let v1 := m.target e02
    let e02 := m.next_edge_ccw e02
    extract_around_Q m mQ vt mQ_P fuel (e02, v1, rLink, rTriangles)

/-- Third vertex of the face of the tetrahedron that contains the halfedge
`s -> t`; the faces are (0,1,2), (1,0,3), (0,2,3), (1,3,2). -/
def tetrahedron_third (s t : Nat) : Nat :=
  match s, t with
  | 0, 1 => 2
  | 1, 2 => 0
  | 2, 0 => 1
  | 1, 0 => 3
  | 0, 3 => 1
  | 3, 1 => 0
  | 0, 2 => 3
  | 2, 3 => 0
  | 3, 0 => 2
  | 1, 3 => 2
  | 3, 2 => 1
  | 2, 1 => 3
  | _, _ => 0

/-- The closed tetrahedron on the vertices 0, 1, 2, 3: the halfedge `s -> t`
has the handle `4 * s + t`, every vertex has degree 3, no edge is a border,
`next_edge_ccw` rotates around the source and `next_edge_cw` is its inverse. -/
def tetrahedron : TSM :=
  { target := fun e => e % 4
    opposite_edge := fun e => 4 * (e % 4) + e / 4
    next_edge := fun e => 4 * (e % 4) + tetrahedron_third (e / 4) (e % 4)
    next_edge_ccw := fun e => 4 * (e / 4) + tetrahedron_third (e / 4) (e % 4)
    next_edge_cw := fun e => 4 * (e / 4) + tetrahedron_third (e % 4) (e / 4)
    is_border := fun _ => false }

/-- Row 1, once accepted (`n >= 2`), has non-zero length: it passed the
`slai > 0` test when it was stored. -/
def Row1Nonzero (cs : Constrians) : Prop :=
  2 ≤ cs.n → 0 < dot cs.A.r1 cs.A.r1

/-! ## The comparisons in C++ `double` -/

/-- The C++ `double` in which `Add_if_alpha_compatible` compares.  The
conversion `to_double`, the product and the comparisons of doubles, and the two
thresholds (which the source obtains as doubles) are outside the source files
and are parameters here.  The one law kept is that zero converts to a double
that is not greater than `0.0`. -/
structure DoubleModel where
  carrier : Type
  to_double : FT → carrier
  zero : carrier
  mul : carrier → carrier → carrier
  gt : carrier → carrier → Bool
  le : carrier → carrier → Bool
  squared_cos_alpha : carrier
  squared_sin_alpha : carrier
  zero_not_gt : gt (to_double 0) zero = false

/-- The decision `lAddIt` of `Add_if_alpha_compatible`, with the comparisons
made in the given doubles. -/
def lAddIt_double (dm : DoubleModel) (cs : Constrians) (Ai : CVector) : Bool :=
  let slai := dm.to_double (dot Ai Ai)
  if cs.n = 1 then
    let d01 := dot cs.A.r0 Ai
    let sla0 := dm.to_double (dot cs.A.r0 cs.A.r0)
    let sd01 := dm.to_double (d01 * d01)
    if dm.gt sd01 (dm.mul (dm.mul sla0 slai) dm.squared_cos_alpha) then false else true
  else if cs.n = 2 then
    let N := cross_product cs.A.r0 cs.A.r1
    let dc012 := dot N Ai
    let slc01 := dm.to_double (dot N N)
    let sdc012 := dm.to_double (dc012 * dc012)
    if dm.le sdc012 (dm.mul (dm.mul slc01 slai) dm.squared_sin_alpha) then false else true
  else true

/-- The source's `Constrians::Add_if_alpha_compatible`, with the comparisons
made in the given doubles. -/
def Add_if_alpha_compatible_double (dm : DoubleModel) (cs : Constrians) (Ai : CVector)
    (bi : FT) : Constrians :=
  let slai := dm.to_double (dot Ai Ai)
  if dm.gt slai dm.zero then
    if lAddIt_double dm cs Ai then store cs Ai bi else cs
  else cs

/-- Exact arithmetic as an instance: the conversion keeps the value and the
product and comparisons are those of the rationals. -/
def exact_double (al : Alpha) : DoubleModel :=
  { carrier := FT
    to_double := to_double
    zero := 0
    mul := fun a b => a * b
    gt := fun a b => decide (a > b)
    le := fun a b => decide (a ≤ b)
    squared_cos_alpha := al.squared_cos_alpha
    squared_sin_alpha := al.squared_sin_alpha
    zero_not_gt := by simp [to_double] }

/-- An instance whose conversion underflows as that of an IEEE double does: a
value of magnitude below `2^-1075`, half the smallest positive double, converts
to zero.  Other values are kept as they are. -/
def underflow_double (al : Alpha) : DoubleModel :=
  { carrier := FT
    to_double := fun q => if |q| < (1 / 2) ^ 1075 then 0 else q
    zero := 0
    mul := fun a b => a * b
    gt := fun a b => decide (a > b)
    le := fun a b => decide (a ≤ b)
    squared_cos_alpha := al.squared_cos_alpha
    squared_sin_alpha := al.squared_sin_alpha
    zero_not_gt := by simp }

theorem dot_self_nonneg (v : CVector) : 0 ≤ dot v v := by
  unfold dot
  nlinarith [mul_self_nonneg v.x, mul_self_nonneg v.y, mul_self_nonneg v.z]

theorem dot_self_eq_zero_iff (v : CVector) : dot v v = 0 ↔ v = NULL_VECTOR := by
  constructor
  · intro h
    unfold dot at h
    have hx : v.x = 0 := by
      nlinarith [mul_self_nonneg v.x, mul_self_nonneg v.y, mul_self_nonneg v.z]
    have hy : v.y = 0 := by
      nlinarith [mul_self_nonneg v.x, mul_self_nonneg v.y, mul_self_nonneg v.z]
    have hz : v.z = 0 := by
      nlinarith [mul_self_nonneg v.x, mul_self_nonneg v.y, mul_self_nonneg v.z]
    cases v
    simp_all [NULL_VECTOR]
  · intro h
    subst h
    simp [dot, NULL_VECTOR]

theorem dot_self_pos_iff (v : CVector) : 0 < dot v v ↔ v ≠ NULL_VECTOR := by
  rw [Ne, ← dot_self_eq_zero_iff]
  constructor
  · intro h
    exact ne_of_gt h
  · intro h
    exact lt_of_le_of_ne (dot_self_nonneg v) (Ne.symm h)

theorem vadd_assoc (a b c : CVector) : vadd (vadd a b) c = vadd a (vadd b c) := by
  simp [vadd, add_assoc]

theorem vadd_null (a : CVector) : vadd a NULL_VECTOR = a := by
  simp [vadd, NULL_VECTOR]

theorem null_vadd (a : CVector) : vadd NULL_VECTOR a = a := by
  simp [vadd, NULL_VECTOR]

theorem madd_assoc (a b c : CMatrix) : madd (madd a b) c = madd a (madd b c) := by
  simp [madd, vadd_assoc]

theorem madd_null (a : CMatrix) : madd a NULL_MATRIX = a := by
  simp [madd, NULL_MATRIX, vadd_null]

theorem null_madd (a : CMatrix) : madd NULL_MATRIX a = a := by
  simp [madd, NULL_MATRIX, null_vadd]

theorem volume_sums_foldl (ts : List Triangle) (acc : CVector × FT) :
    ts.foldl (fun s t => (vadd s.1 t.NormalV, s.2 + t.NormalL)) acc =
      (vadd acc.1 (vsum (ts.map fun t => t.NormalV)),
       acc.2 + (ts.map fun t => t.NormalL).sum) := by
  induction ts generalizing acc with
  | nil => simp [vsum, vadd_null]
  | cons t ts ih =>
    rw [List.foldl_cons, ih]
    simp [vsum, vadd_assoc, add_assoc]

theorem volume_sums_eq (ts : List Triangle) :
    volume_sums ts = (vsum (ts.map fun t => t.NormalV), (ts.map fun t => t.NormalL).sum) := by
  unfold volume_sums
  rw [volume_sums_foldl]
  simp [null_vadd]

theorem volume_optimization_sums_foldl (ts : List Triangle) (acc : CMatrix × CVector) :
    ts.foldl
      (fun s lTri =>
        (madd s.1 (direct_product lTri.NormalV lTri.NormalV),
         vadd s.2 (smul lTri.NormalL lTri.NormalV))) acc =
      (madd acc.1 (msum (ts.map fun t => direct_product t.NormalV t.NormalV)),
       vadd acc.2 (vsum (ts.map fun t => smul t.NormalL t.NormalV))) := by
  induction ts generalizing acc with
  | nil => simp [vsum, msum, vadd_null, madd_null]
  | cons t ts ih =>
    rw [List.foldl_cons, ih]
    simp [vsum, msum, vadd_assoc, madd_assoc]

theorem volume_optimization_sums_eq (ts : List Triangle) :
    volume_optimization_sums ts =
      (msum (ts.map fun t => direct_product t.NormalV t.NormalV),
       vsum (ts.map fun t => smul t.NormalL t.NormalV)) := by
  unfold volume_optimization_sums
  rw [volume_optimization_sums_foldl]
  simp [null_vadd, null_madd]

theorem solve_eq_some_iff (cs : Constrians) (v : Point) :
    solve cs = some v ↔
      cs.n = 3 ∧ determinant cs.A ≠ 0 ∧
        ∃ Ai, inverse_matrix cs.A = some Ai ∧
          v = ⟨dot cs.b Ai.r0, dot cs.b Ai.r1, dot cs.b Ai.r2⟩ := by
  unfold solve
  by_cases hn : cs.n = 3
  · by_cases hd : determinant cs.A = 0
    · simp [hn, hd, inverse_matrix]
    · simp [hn, hd, inverse_matrix, vecMul, eq_comm]
  · simp [hn]

theorem Add_if_alpha_compatible_n (al : Alpha) (cs : Constrians) (Ai : CVector) (bi : FT) :
    (Add_if_alpha_compatible al cs Ai bi).n = cs.n ∨
      (Add_if_alpha_compatible al cs Ai bi).n = cs.n + 1 := by
  unfold Add_if_alpha_compatible store
  simp only
  split_ifs <;> simp

theorem Add_from_gradient_ok (al : Alpha) (cs : Constrians) (H : CMatrix) (c : CVector)
    (h0 : 0 ≤ cs.n) (h2 : cs.n ≤ 2) :
    ∃ r, Add_from_gradient al cs H c = .ok r ∧ cs.n ≤ r.n ∧ r.n ≤ 3 := by
  unfold Add_from_gradient
  simp only [ge_iff_le, h0, h2, and_self, if_true]
  split_ifs with h h1
  · refine ⟨_, rfl, ?_, ?_⟩
    · rcases Add_if_alpha_compatible_n al cs H.r0 (-c.x) with e1 | e1 <;>
      rcases Add_if_alpha_compatible_n al (Add_if_alpha_compatible al cs H.r0 (-c.x))
        H.r1 (-c.y) with e2 | e2 <;>
      rcases Add_if_alpha_compatible_n al (Add_if_alpha_compatible al
        (Add_if_alpha_compatible al cs H.r0 (-c.x)) H.r1 (-c.y)) H.r2 (-c.z) with e3 | e3 <;>
      omega
    · rcases Add_if_alpha_compatible_n al cs H.r0 (-c.x) with e1 | e1 <;>
      rcases Add_if_alpha_compatible_n al (Add_if_alpha_compatible al cs H.r0 (-c.x))
        H.r1 (-c.y) with e2 | e2 <;>
      rcases Add_if_alpha_compatible_n al (Add_if_alpha_compatible al
        (Add_if_alpha_compatible al cs H.r0 (-c.x)) H.r1 (-c.y)) H.r2 (-c.z) with e3 | e3 <;>
      omega
  · refine ⟨_, rfl, ?_, ?_⟩ <;>
    · generalize hA1 : mulVec H (gradient_Q0 cs.A.r0) = A1
      generalize hb1 : -dot (gradient_Q0 cs.A.r0) c = b1
      generalize hA2 : mulVec H (cross_product cs.A.r0 (gradient_Q0 cs.A.r0)) = A2
      generalize hb2 : -dot (cross_product cs.A.r0 (gradient_Q0 cs.A.r0)) c = b2
      rcases Add_if_alpha_compatible_n al cs A1 b1 with e1 | e1 <;>
      rcases Add_if_alpha_compatible_n al (Add_if_alpha_compatible al cs A1 b1) A2 b2
        with e2 | e2 <;>
      omega
  · refine ⟨_, rfl, ?_, ?_⟩ <;>
    · generalize hA2 : mulVec H (cross_product cs.A.r0 cs.A.r1) = A2
      generalize hb2 : -dot (cross_product cs.A.r0 cs.A.r1) c = b2
      rcases Add_if_alpha_compatible_n al cs A2 b2 with e1 | e1 <;> omega

theorem accumulate_ok (LT_product : CVector → CMatrix) (al : Alpha) (mParams : Params)
    (nb : Neighborhood) :
    ∃ cs, accumulate LT_product al mParams nb = .ok cs ∧ 0 ≤ cs.n ∧ cs.n ≤ 3 := by
  -- family 1
  have h1 : ∃ c1, (match nb.lBdry with
      | some bd => Add_boundary_preservation_constrians LT_product al Constrians.empty bd
      | none => Except.ok Constrians.empty) = .ok c1 ∧ 0 ≤ c1.n ∧ c1.n ≤ 3 := by
    cases nb.lBdry with
    | none => exact ⟨_, rfl, by simp [Constrians.empty], by simp [Constrians.empty]⟩
    | some bd =>
      obtain ⟨r, hr, hr0, hr3⟩ := Add_from_gradient_ok al Constrians.empty
        (LT_product (vadd (vadd bd.op bd.pq) bd.qr))
        (cross_product (vadd (vadd bd.op bd.pq) bd.qr) (vadd (vadd bd.opN bd.pqN) bd.qrN))
        (by simp [Constrians.empty]) (by simp [Constrians.empty])
      refine ⟨r, hr, ?_, hr3⟩
      have : Constrians.empty.n = 0 := rfl
      omega
  obtain ⟨c1, hc1, h10, h13⟩ := h1
  unfold accumulate
  simp only [hc1]
  -- family 2
  have h2 : ∃ c2, (if c1.n < 3 then Add_volume_preservation_constrians al c1 nb.lTriangles
      else c1) = c2 ∧ 0 ≤ c2.n ∧ c2.n ≤ 3 := by
    refine ⟨_, rfl, ?_, ?_⟩ <;>
    · split_ifs with h
      · unfold Add_volume_preservation_constrians
        rcases Add_if_alpha_compatible_n al c1 (volume_sums nb.lTriangles).1
          (volume_sums nb.lTriangles).2 with e | e <;> simp only [e] <;> omega
      · omega
  obtain ⟨c2, hc2, h20, h23⟩ := h2
  simp only [hc2]
  -- family 3
  have h3 : ∃ c3, (if c2.n < 3 then
        Add_boundary_and_volume_optimization_constrians LT_product al mParams nb.p nb.q c2
          nb.lBdry nb.lTriangles
      else Except.ok c2) = .ok c3 ∧ 0 ≤ c3.n ∧ c3.n ≤ 3 := by
    split_ifs with h
    · obtain ⟨r, hr, hr0, hr3⟩ := Add_from_gradient_ok al c2
        (boundary_and_volume_gradient LT_product mParams nb.p nb.q nb.lBdry nb.lTriangles).1
        (boundary_and_volume_gradient LT_product mParams nb.p nb.q nb.lBdry nb.lTriangles).2
        h20 (by omega)
      exact ⟨r, hr, by omega, hr3⟩
    · exact ⟨c2, rfl, h20, h23⟩
  obtain ⟨c3, hc3, h30, h33⟩ := h3
  simp only [hc3]
  -- family 4
  split_ifs with h
  · obtain ⟨r, hr, hr0, hr3⟩ := Add_from_gradient_ok al c3
      ⟨⟨(nb.lLink.length : FT), 0, 0⟩, ⟨0, (nb.lLink.length : FT), 0⟩,
        ⟨0, 0, (nb.lLink.length : FT)⟩⟩
      (nb.lLink.foldl (fun c p => vadd c (psub ORIGIN p)) NULL_VECTOR) h30 (by omega)
    exact ⟨r, hr, by omega, hr3⟩
  · exact ⟨c3, rfl, h30, h33⟩

/-! ## Solver -/

/-- C1: whenever the solving step returns a point `v`, that point satisfies
the three accepted constraints `row_i(A) . v = b_i`, and it is the only vector
that does. -/
theorem solve_satisfies_constraints (cs : Constrians) (v : Point) (h : solve cs = some v) :
    dot cs.A.r0 ⟨v.x, v.y, v.z⟩ = cs.b.x ∧
    dot cs.A.r1 ⟨v.x, v.y, v.z⟩ = cs.b.y ∧
    dot cs.A.r2 ⟨v.x, v.y, v.z⟩ = cs.b.z ∧
    ∀ w : CVector, dot cs.A.r0 w = cs.b.x → dot cs.A.r1 w = cs.b.y →
      dot cs.A.r2 w = cs.b.z → w = ⟨v.x, v.y, v.z⟩ := by
  obtain ⟨_, hd, Ai, hAi, hv⟩ := (solve_eq_some_iff cs v).mp h
  obtain ⟨n, ⟨⟨a00, a01, a02⟩, ⟨a10, a11, a12⟩, ⟨a20, a21, a22⟩⟩, ⟨b0, b1, b2⟩⟩ := cs
  simp only [inverse_matrix, hd, if_false, Option.some.injEq] at hAi
  subst hAi
  subst hv
  simp only [determinant, dot, cross_product] at hd ⊢
  refine ⟨?_, ?_, ?_, ?_⟩
  · field_simp
    ring
  · field_simp
    ring
  · field_simp
    ring
  · rintro ⟨w0, w1, w2⟩ h0 h1 h2
    simp only at h0 h1 h2
    subst h0 h1 h2
    congr 1
    · field_simp
      ring
    · field_simp
      ring
    · field_simp
      ring

/-- Witness of C1: the system with rows (2,0,0), (0,1,0), (1,0,1) and
scalars (2,3,4) is solved by the point (1,3,3). -/
theorem solve_satisfies_constraints_witness :
    solve ⟨3, ⟨⟨2, 0, 0⟩, ⟨0, 1, 0⟩, ⟨1, 0, 1⟩⟩, ⟨2, 3, 4⟩⟩ = some ⟨1, 3, 3⟩ ∧
    dot (⟨2, 0, 0⟩ : CVector) ⟨1, 3, 3⟩ = 2 ∧
    dot (⟨0, 1, 0⟩ : CVector) ⟨1, 3, 3⟩ = 3 ∧
    dot (⟨1, 0, 1⟩ : CVector) ⟨1, 3, 3⟩ = 4 ∧
    ∀ w : CVector, dot ⟨2, 0, 0⟩ w = 2 → dot ⟨0, 1, 0⟩ w = 3 →
      dot ⟨1, 0, 1⟩ w = 4 → w = ⟨1, 3, 3⟩ :=
  have h : solve ⟨3, ⟨⟨2, 0, 0⟩, ⟨0, 1, 0⟩, ⟨1, 0, 1⟩⟩, ⟨2, 3, 4⟩⟩ = some ⟨1, 3, 3⟩ := by
    norm_num [solve, inverse_matrix, determinant, vecMul, dot, cross_product]
  ⟨h, solve_satisfies_constraints _ _ h⟩

/-- C2: for every neighbourhood the constructor finishes without a fault, and
its placement is absent exactly when the accumulated system has fewer than
three rows or a singular matrix, present exactly when it has three rows and a
regular matrix. -/
theorem placement_absent_iff (LT_product : CVector → CMatrix) (al : Alpha) (mParams : Params)
    (nb : Neighborhood) :
    ∃ cs r, accumulate LT_product al mParams nb = .ok cs ∧
      LindstromTurkImpl LT_product al mParams nb = .ok r ∧
      (r = none ↔ cs.n < 3 ∨ determinant cs.A = 0) ∧
      (r.isSome = true ↔ cs.n = 3 ∧ determinant cs.A ≠ 0) ∧
      (r.isSome = true ↔ cs.n = 3 ∧ (inverse_matrix cs.A).isSome = true) := by
  obtain ⟨cs, hcs, h0, h3⟩ := accumulate_ok LT_product al mParams nb
  refine ⟨cs, solve cs, hcs, ?_, ?_, ?_, ?_⟩
  · simp [LindstromTurkImpl, hcs]
  · unfold solve inverse_matrix
    by_cases hn : cs.n = 3
    · by_cases hd : determinant cs.A = 0 <;> simp [hn, hd]
    · have : cs.n < 3 := by omega
      simp [hn, this]
  · unfold solve inverse_matrix
    by_cases hn : cs.n = 3
    · by_cases hd : determinant cs.A = 0 <;> simp [hn, hd]
    · simp [hn]
  · unfold solve inverse_matrix
    by_cases hn : cs.n = 3
    · by_cases hd : determinant cs.A = 0 <;> simp [hn, hd]
    · simp [hn]

/-! ## The alpha-compatibility filter -/

/-- C4: with one accepted row, a non-zero candidate is rejected (system
unchanged) exactly when `(row0 . row)^2 > (row0 . row0)(row . row) cos^2(alpha)`,
and is otherwise stored as row 1 with its scalar, the count becoming 2. -/
theorem one_row_filter (al : Alpha) (cs : Constrians) (Ai : CVector) (bi : FT)
    (hn : cs.n = 1) (hAi : Ai ≠ NULL_VECTOR) :
    (Add_if_alpha_compatible al cs Ai bi = cs ↔
      (dot cs.A.r0 Ai) ^ 2 > dot cs.A.r0 cs.A.r0 * dot Ai Ai * al.squared_cos_alpha) ∧
    (Add_if_alpha_compatible al cs Ai bi =
        ⟨2, ⟨cs.A.r0, Ai, cs.A.r2⟩, ⟨cs.b.x, bi, cs.b.z⟩⟩ ↔
      ¬ (dot cs.A.r0 Ai) ^ 2 > dot cs.A.r0 cs.A.r0 * dot Ai Ai * al.squared_cos_alpha) := by
  have hp : to_double (dot Ai Ai) > 0 := (dot_self_pos_iff Ai).mpr hAi
  obtain ⟨n, A, b⟩ := cs
  simp only at hn
  subst hn
  by_cases hc : (dot A.r0 Ai) ^ 2 > dot A.r0 A.r0 * dot Ai Ai * al.squared_cos_alpha
  · have hc2 : to_double (dot A.r0 Ai * dot A.r0 Ai) >
        to_double (dot A.r0 A.r0) * to_double (dot Ai Ai) * al.squared_cos_alpha := by
      simpa [to_double, sq] using hc
    simp [Add_if_alpha_compatible, hp, lAddIt, hc2, hc]
  · have hc2 : ¬ to_double (dot A.r0 Ai * dot A.r0 Ai) >
        to_double (dot A.r0 A.r0) * to_double (dot Ai Ai) * al.squared_cos_alpha := by
      simpa [to_double, sq] using hc
    simp [Add_if_alpha_compatible, hp, lAddIt, hc2, hc, store]

/-- Witness of C4: row0 = (1,0,0), threshold 1/2; the candidate (1,1,0) has
squared cosine 1/2 and is stored as row 1. -/
theorem one_row_filter_witness :
    Add_if_alpha_compatible ⟨1 / 2, 0⟩ ⟨1, ⟨⟨1, 0, 0⟩, NULL_VECTOR, NULL_VECTOR⟩, ⟨7, 0, 0⟩⟩
        ⟨1, 1, 0⟩ 5 =
      ⟨2, ⟨⟨1, 0, 0⟩, ⟨1, 1, 0⟩, NULL_VECTOR⟩, ⟨7, 5, 0⟩⟩ :=
  ((one_row_filter ⟨1 / 2, 0⟩ ⟨1, ⟨⟨1, 0, 0⟩, NULL_VECTOR, NULL_VECTOR⟩, ⟨7, 0, 0⟩⟩
      ⟨1, 1, 0⟩ 5 rfl (by decide)).2).mpr (by norm_num [dot])

/-- C5: with two accepted rows and `N = row0 x row1`, a non-zero candidate is
rejected (system unchanged) exactly when
`(N . row)^2 <= (N . N)(row . row) sin^2(alpha)`, and is otherwise stored as
row 2 with its scalar, the count becoming 3. -/
theorem two_rows_filter (al : Alpha) (cs : Constrians) (Ai : CVector) (bi : FT)
    (hn : cs.n = 2) (hAi : Ai ≠ NULL_VECTOR) :
    (Add_if_alpha_compatible al cs Ai bi = cs ↔
      (dot (cross_product cs.A.r0 cs.A.r1) Ai) ^ 2 ≤
        dot (cross_product cs.A.r0 cs.A.r1) (cross_product cs.A.r0 cs.A.r1) * dot Ai Ai *
          al.squared_sin_alpha) ∧
    (Add_if_alpha_compatible al cs Ai bi =
        ⟨3, ⟨cs.A.r0, cs.A.r1, Ai⟩, ⟨cs.b.x, cs.b.y, bi⟩⟩ ↔
      ¬ (dot (cross_product cs.A.r0 cs.A.r1) Ai) ^ 2 ≤
        dot (cross_product cs.A.r0 cs.A.r1) (cross_product cs.A.r0 cs.A.r1) * dot Ai Ai *
          al.squared_sin_alpha) := by
  have hp : to_double (dot Ai Ai) > 0 := (dot_self_pos_iff Ai).mpr hAi
  obtain ⟨n, A, b⟩ := cs
  simp only at hn
  subst hn
  generalize hN : cross_product A.r0 A.r1 = N
  by_cases hc : (dot N Ai) ^ 2 ≤ dot N N * dot Ai Ai * al.squared_sin_alpha
  · have hc2 : to_double (dot N Ai * dot N Ai) ≤
        to_double (dot N N) * to_double (dot Ai Ai) * al.squared_sin_alpha := by
      simpa [to_double, sq] using hc
    simp [Add_if_alpha_compatible, hp, lAddIt, hN, hc2, hc]
  · have hc2 : ¬ to_double (dot N Ai * dot N Ai) ≤
        to_double (dot N N) * to_double (dot Ai Ai) * al.squared_sin_alpha := by
      simpa [to_double, sq] using hc
    simp [Add_if_alpha_compatible, hp, lAddIt, hN, hc2, hc, store]

/-- Witness of C5: rows (1,0,0), (0,1,0), threshold 1/2; the candidate (0,1,1)
has squared sine 1/2 against their plane and is rejected. -/
theorem two_rows_filter_witness :
    Add_if_alpha_compatible ⟨0, 1 / 2⟩ ⟨2, ⟨⟨1, 0, 0⟩, ⟨0, 1, 0⟩, NULL_VECTOR⟩, ⟨7, 8, 0⟩⟩
        ⟨0, 1, 1⟩ 5 =
      ⟨2, ⟨⟨1, 0, 0⟩, ⟨0, 1, 0⟩, NULL_VECTOR⟩, ⟨7, 8, 0⟩⟩ :=
  ((two_rows_filter ⟨0, 1 / 2⟩ ⟨2, ⟨⟨1, 0, 0⟩, ⟨0, 1, 0⟩, NULL_VECTOR⟩, ⟨7, 8, 0⟩⟩
      ⟨0, 1, 1⟩ 5 rfl (by decide)).1).mpr (by norm_num [dot, cross_product])

/-- C7: on a system with `n = k`, `0 <= k <= 2`, a call either leaves the
whole system unchanged or yields `n = k + 1` with row `k` equal to the
candidate row and component `k` of `b` equal to the candidate scalar, every
other row of `A` and component of `b` being unchanged; the count never
decreases. -/
theorem accept_or_reject_frame (al : Alpha) (cs : Constrians) (Ai : CVector) (bi : FT)
    (h0 : 0 ≤ cs.n) (h2 : cs.n ≤ 2) :
    (Add_if_alpha_compatible al cs Ai bi = cs ∨
      ((Add_if_alpha_compatible al cs Ai bi).n = cs.n + 1 ∧
        rowAt (Add_if_alpha_compatible al cs Ai bi).A cs.n = Ai ∧
        compAt (Add_if_alpha_compatible al cs Ai bi).b cs.n = bi ∧
        ∀ j : Int, 0 ≤ j → j ≤ 2 → j ≠ cs.n →
          rowAt (Add_if_alpha_compatible al cs Ai bi).A j = rowAt cs.A j ∧
          compAt (Add_if_alpha_compatible al cs Ai bi).b j = compAt cs.b j)) ∧
    cs.n ≤ (Add_if_alpha_compatible al cs Ai bi).n := by
  obtain ⟨n, A, b⟩ := cs
  simp only at h0 h2
  have hk : n = 0 ∨ n = 1 ∨ n = 2 := by omega
  unfold Add_if_alpha_compatible
  simp only
  split_ifs with hp hl
  · refine ⟨Or.inr ?_, ?_⟩
    · rcases hk with rfl | rfl | rfl
      · refine ⟨by simp [store], by simp [store, rowAt], by simp [store, compAt], ?_⟩
        intro j hj0 hj2 hj
        have : j = 1 ∨ j = 2 := by omega
        rcases this with rfl | rfl <;> simp [store, rowAt, compAt]
      · refine ⟨by simp [store], by simp [store, rowAt], by simp [store, compAt], ?_⟩
        intro j hj0 hj2 hj
        have : j = 0 ∨ j = 2 := by omega
        rcases this with rfl | rfl <;> simp [store, rowAt, compAt]
      · refine ⟨by simp [store], by simp [store, rowAt], by simp [store, compAt], ?_⟩
        intro j hj0 hj2 hj
        have : j = 0 ∨ j = 1 := by omega
        rcases this with rfl | rfl <;> simp [store, rowAt, compAt]
    · rcases hk with rfl | rfl | rfl <;> simp [store]
  · exact ⟨Or.inl rfl, le_refl _⟩
  · exact ⟨Or.inl rfl, le_refl _⟩

/-- Witness of C7: a second row is accepted next to (1,0,0). -/
theorem accept_or_reject_frame_witness :
    (0 : Int) ≤ 1 ∧ (1 : Int) ≤ 2 ∧
    (1 : Int) ≤ (Add_if_alpha_compatible ⟨1 / 2, 0⟩
      ⟨1, ⟨⟨1, 0, 0⟩, NULL_VECTOR, NULL_VECTOR⟩, ⟨7, 0, 0⟩⟩ ⟨1, 1, 0⟩ 5).n :=
  ⟨by decide, by decide,
    (accept_or_reject_frame ⟨1 / 2, 0⟩
      ⟨1, ⟨⟨1, 0, 0⟩, NULL_VECTOR, NULL_VECTOR⟩, ⟨7, 0, 0⟩⟩ ⟨1, 1, 0⟩ 5
      (by decide) (by decide)).2⟩

/-! ## Tie-break -/

/-- C8: `index_of_max_component` returns an index in 0..2 whose component is
the maximum of the three, and no smaller index has a component equal to that
maximum; on (2,2,1) it returns 0. -/
theorem index_of_max_component_smallest (v : CVector) :
    index_of_max_component v ≤ 2 ∧
    compAt v (index_of_max_component v) = max v.x (max v.y v.z) ∧
    (∀ j : Nat, j < index_of_max_component v → compAt v j ≠ max v.x (max v.y v.z)) ∧
    index_of_max_component ⟨2, 2, 1⟩ = 0 := by
  obtain ⟨x, y, z⟩ := v
  refine ⟨?_, ?_, ?_, by decide⟩
  · unfold index_of_max_component
    simp only
    split_ifs <;> simp
  · unfold index_of_max_component
    simp only
    by_cases h1 : x < y
    · by_cases h2 : y < z
      · have e1 : max y z = z := max_eq_right (le_of_lt h2)
        have e2 : max x z = z := max_eq_right (le_of_lt (lt_trans h1 h2))
        simp [h1, h2, compAt, e1, e2]
      · have e1 : max y z = y := max_eq_left (not_lt.mp h2)
        have e2 : max x y = y := max_eq_right (le_of_lt h1)
        simp [h1, h2, compAt, e1, e2]
    · by_cases h2 : x < z
      · have e1 : max y z = z := max_eq_right (le_trans (not_lt.mp h1) (le_of_lt h2))
        have e2 : max x z = z := max_eq_right (le_of_lt h2)
        simp [h1, h2, compAt, e1, e2]
      · have e1 : max x (max y z) = x :=
          max_eq_left (max_le (not_lt.mp h1) (not_lt.mp h2))
        simp [h1, h2, compAt, e1]
  · unfold index_of_max_component
    simp only
    intro j
    by_cases h1 : x < y
    · by_cases h2 : y < z
      · have e1 : max y z = z := max_eq_right (le_of_lt h2)
        have e2 : max x z = z := max_eq_right (le_of_lt (lt_trans h1 h2))
        simp only [h1, h2, if_true, e1, e2]
        intro hj
        have : j = 0 ∨ j = 1 := by omega
        rcases this with rfl | rfl
        · simpa [compAt] using ne_of_lt (lt_trans h1 h2)
        · simpa [compAt] using ne_of_lt h2
      · have e1 : max y z = y := max_eq_left (not_lt.mp h2)
        have e2 : max x y = y := max_eq_right (le_of_lt h1)
        simp only [h1, h2, if_true, if_false, e1, e2]
        intro hj
        have : j = 0 := by omega
        subst this
        simpa [compAt] using ne_of_lt h1
    · by_cases h2 : x < z
      · have e1 : max y z = z := max_eq_right (le_trans (not_lt.mp h1) (le_of_lt h2))
        have e2 : max x z = z := max_eq_right (le_of_lt h2)
        simp only [h1, h2, if_true, if_false, e1, e2]
        intro hj
        have : j = 0 ∨ j = 1 := by omega
        rcases this with rfl | rfl
        · simpa [compAt] using ne_of_lt h2
        · simpa [compAt] using ne_of_lt (lt_of_le_of_lt (not_lt.mp h1) h2)
      · simp only [h1, h2, if_false]
        intro hj
        omega

/-! ## Constraint families -/

/-- C9 (as stated, refuted): for the single triangle (1,0,0), (0,1,0), (0,0,1)
the normal vector is (1,1,1) and the normal scalar is 1; the family stores
the scalar 1, which is not what offering the negated sum -1 would store. -/
theorem volume_scalar_not_negated :
    Get_triangle ⟨1, 0, 0⟩ ⟨0, 1, 0⟩ ⟨0, 0, 1⟩ = ⟨⟨1, 1, 1⟩, 1⟩ ∧
    Add_volume_preservation_constrians ⟨1, 0⟩ Constrians.empty
        [Get_triangle ⟨1, 0, 0⟩ ⟨0, 1, 0⟩ ⟨0, 0, 1⟩] =
      ⟨1, ⟨⟨1, 1, 1⟩, NULL_VECTOR, NULL_VECTOR⟩, ⟨1, 0, 0⟩⟩ ∧
    Add_if_alpha_compatible ⟨1, 0⟩ Constrians.empty ⟨1, 1, 1⟩ (-1) =
      ⟨1, ⟨⟨1, 1, 1⟩, NULL_VECTOR, NULL_VECTOR⟩, ⟨-1, 0, 0⟩⟩ ∧
    Add_volume_preservation_constrians ⟨1, 0⟩ Constrians.empty
        [Get_triangle ⟨1, 0, 0⟩ ⟨0, 1, 0⟩ ⟨0, 0, 1⟩] ≠
      Add_if_alpha_compatible ⟨1, 0⟩ Constrians.empty
        (vsum ([Get_triangle ⟨1, 0, 0⟩ ⟨0, 1, 0⟩ ⟨0, 0, 1⟩].map fun t => t.NormalV))
        (-(([Get_triangle ⟨1, 0, 0⟩ ⟨0, 1, 0⟩ ⟨0, 0, 1⟩].map fun t => t.NormalL).sum)) := by
  have hT : Get_triangle ⟨1, 0, 0⟩ ⟨0, 1, 0⟩ ⟨0, 0, 1⟩ = ⟨⟨1, 1, 1⟩, 1⟩ := by
    norm_num [Get_triangle, Point_cross_product, cross_product, psub, dot, ORIGIN]
  have h1 : Add_volume_preservation_constrians ⟨1, 0⟩ Constrians.empty [⟨⟨1, 1, 1⟩, 1⟩] =
      ⟨1, ⟨⟨1, 1, 1⟩, NULL_VECTOR, NULL_VECTOR⟩, ⟨1, 0, 0⟩⟩ := by
    norm_num [Add_volume_preservation_constrians, volume_sums, Add_if_alpha_compatible,
      lAddIt, store, dot, to_double, vadd, NULL_VECTOR, NULL_MATRIX, Constrians.empty]
  have h2 : Add_if_alpha_compatible ⟨1, 0⟩ Constrians.empty ⟨1, 1, 1⟩ (-1) =
      ⟨1, ⟨⟨1, 1, 1⟩, NULL_VECTOR, NULL_VECTOR⟩, ⟨-1, 0, 0⟩⟩ := by
    norm_num [Add_if_alpha_compatible, lAddIt, store, dot, to_double, NULL_VECTOR,
      NULL_MATRIX, Constrians.empty]
  have h3 : vsum ([(⟨⟨1, 1, 1⟩, 1⟩ : Triangle)].map fun t => t.NormalV) = ⟨1, 1, 1⟩ := by
    norm_num [vsum, vadd, NULL_VECTOR]
  have h4 : -(([(⟨⟨1, 1, 1⟩, 1⟩ : Triangle)].map fun t => t.NormalL).sum) = -1 := by
    norm_num
  rw [hT, h1, h3, h4, h2]
  exact ⟨rfl, rfl, rfl, by decide⟩

/-- C9 (amended): for every list of triangles the volume-preservation family
makes exactly one call of `Add_if_alpha_compatible`, whose row is the sum of
the normal vectors and whose scalar is the sum of the normal scalars, not
negated. -/
theorem volume_family_offers_sums (al : Alpha) (cs : Constrians) (ts : List Triangle) :
    volume_sums ts = (vsum (ts.map fun t => t.NormalV), (ts.map fun t => t.NormalL).sum) ∧
    Add_volume_preservation_constrians al cs ts =
      Add_if_alpha_compatible al cs (vsum (ts.map fun t => t.NormalV))
        ((ts.map fun t => t.NormalL).sum) := by
  refine ⟨volume_sums_eq ts, ?_⟩
  unfold Add_volume_preservation_constrians
  rw [volume_sums_eq]

/-- C10 (as stated, refuted): with no boundary, one triangle of normal vector
(1,0,0) and normal scalar 1, and `VolumeWeight = 2`, the gradient is the
unscaled pair (diag(1,0,0), (1,0,0)), not twice it. -/
theorem volume_term_unscaled_without_boundary :
    boundary_and_volume_gradient (fun _ => NULL_MATRIX) ⟨1, 2⟩ ⟨0, 0, 0⟩ ⟨1, 0, 0⟩ none
        [⟨⟨1, 0, 0⟩, 1⟩] =
      (⟨⟨1, 0, 0⟩, ⟨0, 0, 0⟩, ⟨0, 0, 0⟩⟩, ⟨1, 0, 0⟩) ∧
    (mscale 2 (msum ([(⟨⟨1, 0, 0⟩, 1⟩ : Triangle)].map
        fun t => direct_product t.NormalV t.NormalV)),
      smul 2 (vsum ([(⟨⟨1, 0, 0⟩, 1⟩ : Triangle)].map fun t => smul t.NormalL t.NormalV))) =
      ((⟨⟨2, 0, 0⟩, ⟨0, 0, 0⟩, ⟨0, 0, 0⟩⟩ : CMatrix), (⟨2, 0, 0⟩ : CVector)) ∧
    boundary_and_volume_gradient (fun _ => NULL_MATRIX) ⟨1, 2⟩ ⟨0, 0, 0⟩ ⟨1, 0, 0⟩ none
        [⟨⟨1, 0, 0⟩, 1⟩] ≠
      (mscale 2 (msum ([(⟨⟨1, 0, 0⟩, 1⟩ : Triangle)].map
          fun t => direct_product t.NormalV t.NormalV)),
        smul 2 (vsum ([(⟨⟨1, 0, 0⟩, 1⟩ : Triangle)].map
          fun t => smul t.NormalL t.NormalV))) := by
  have h1 : boundary_and_volume_gradient (fun _ => NULL_MATRIX) ⟨1, 2⟩ ⟨0, 0, 0⟩ ⟨1, 0, 0⟩
      none [⟨⟨1, 0, 0⟩, 1⟩] = (⟨⟨1, 0, 0⟩, ⟨0, 0, 0⟩, ⟨0, 0, 0⟩⟩, ⟨1, 0, 0⟩) := by
    norm_num [boundary_and_volume_gradient, volume_optimization_sums, madd, vadd, smul,
      direct_product, NULL_MATRIX, NULL_VECTOR]
  have h2 : (mscale 2 (msum ([(⟨⟨1, 0, 0⟩, 1⟩ : Triangle)].map
        fun t => direct_product t.NormalV t.NormalV)),
      smul 2 (vsum ([(⟨⟨1, 0, 0⟩, 1⟩ : Triangle)].map fun t => smul t.NormalL t.NormalV))) =
      ((⟨⟨2, 0, 0⟩, ⟨0, 0, 0⟩, ⟨0, 0, 0⟩⟩ : CMatrix), (⟨2, 0, 0⟩ : CVector)) := by
    norm_num [mscale, msum, vsum, madd, vadd, smul, direct_product, NULL_MATRIX,
      NULL_VECTOR]
  rw [h1, h2]
  exact ⟨rfl, rfl, by decide⟩

/-- C10 (amended): the family passes one gradient to `Add_from_gradient`.
With no boundary it is the unscaled volume term, `H = sum(NormalV (x) NormalV)`
and `c = sum(NormalL * NormalV)`; with a boundary it is `VolumeWeight` times
that term plus `9 * BoundaryWeight * |P-Q|^2 / 10` times the boundary term. -/
theorem boundary_and_volume_gradient_eq (LT_product : CVector → CMatrix) (al : Alpha)
    (mParams : Params) (p q : Point) (cs : Constrians) (bd : Boundary) (ts : List Triangle) :
    boundary_and_volume_gradient LT_product mParams p q none ts =
      (msum (ts.map fun t => direct_product t.NormalV t.NormalV),
       vsum (ts.map fun t => smul t.NormalL t.NormalV)) ∧
    boundary_and_volume_gradient LT_product mParams p q (some bd) ts =
      (madd (mscale mParams.VolumeWeight
              (msum (ts.map fun t => direct_product t.NormalV t.NormalV)))
          (mscale (9 * mParams.BoundaryWeight * squared_distance p q / 10)
              (madd (madd (LT_product bd.op) (LT_product bd.pq)) (LT_product bd.qr))),
       vadd (smul mParams.VolumeWeight (vsum (ts.map fun t => smul t.NormalL t.NormalV)))
          (smul (9 * mParams.BoundaryWeight * squared_distance p q / 10)
              (vadd (vadd (cross_product bd.op bd.opN) (cross_product bd.pq bd.pqN))
                (cross_product bd.qr bd.qrN)))) ∧
    ∀ aBdry : Option Boundary,
      Add_boundary_and_volume_optimization_constrians LT_product al mParams p q cs aBdry ts =
        Add_from_gradient al cs
          (boundary_and_volume_gradient LT_product mParams p q aBdry ts).1
          (boundary_and_volume_gradient LT_product mParams p q aBdry ts).2 := by
  refine ⟨?_, ?_, fun _ => rfl⟩
  · simp [boundary_and_volume_gradient, volume_optimization_sums_eq]
  · simp [boundary_and_volume_gradient, volume_optimization_sums_eq]

/-! ## Acceptance and rejection, case by case -/

theorem Add_if_reject_zero (al : Alpha) (cs : Constrians) (Ai : CVector) (bi : FT)
    (h : dot Ai Ai = 0) : Add_if_alpha_compatible al cs Ai bi = cs := by
  simp [Add_if_alpha_compatible, to_double, h]

theorem Add_if_accept0 (al : Alpha) (cs : Constrians) (Ai : CVector) (bi : FT)
    (hn : cs.n = 0) (hp : 0 < dot Ai Ai) :
    Add_if_alpha_compatible al cs Ai bi =
      ⟨1, ⟨Ai, cs.A.r1, cs.A.r2⟩, ⟨bi, cs.b.y, cs.b.z⟩⟩ := by
  obtain ⟨n, A, b⟩ := cs
  simp only at hn
  subst hn
  have hp2 : to_double (dot Ai Ai) > 0 := hp
  simp [Add_if_alpha_compatible, hp2, lAddIt, store]

theorem Add_if_accept1 (al : Alpha) (cs : Constrians) (Ai : CVector) (bi : FT)
    (hn : cs.n = 1) (hp : 0 < dot Ai Ai)
    (hc : dot cs.A.r0 Ai * dot cs.A.r0 Ai ≤
      dot cs.A.r0 cs.A.r0 * dot Ai Ai * al.squared_cos_alpha) :
    Add_if_alpha_compatible al cs Ai bi =
      ⟨2, ⟨cs.A.r0, Ai, cs.A.r2⟩, ⟨cs.b.x, bi, cs.b.z⟩⟩ := by
  obtain ⟨n, A, b⟩ := cs
  simp only at hn hc
  subst hn
  have hp2 : to_double (dot Ai Ai) > 0 := hp
  have hc2 : ¬ to_double (dot A.r0 Ai * dot A.r0 Ai) >
      to_double (dot A.r0 A.r0) * to_double (dot Ai Ai) * al.squared_cos_alpha :=
    not_lt.mpr hc
  simp [Add_if_alpha_compatible, hp2, lAddIt, hc2, store]

theorem Add_if_reject1 (al : Alpha) (cs : Constrians) (Ai : CVector) (bi : FT)
    (hn : cs.n = 1)
    (hc : dot cs.A.r0 Ai * dot cs.A.r0 Ai >
      dot cs.A.r0 cs.A.r0 * dot Ai Ai * al.squared_cos_alpha) :
    Add_if_alpha_compatible al cs Ai bi = cs := by
  obtain ⟨n, A, b⟩ := cs
  simp only at hn hc
  subst hn
  have hc2 : to_double (dot A.r0 Ai * dot A.r0 Ai) >
      to_double (dot A.r0 A.r0) * to_double (dot Ai Ai) * al.squared_cos_alpha := hc
  simp [Add_if_alpha_compatible, lAddIt, hc2]

theorem Add_if_accept2 (al : Alpha) (cs : Constrians) (Ai : CVector) (bi : FT)
    (hn : cs.n = 2) (hp : 0 < dot Ai Ai)
    (hc : dot (cross_product cs.A.r0 cs.A.r1) (cross_product cs.A.r0 cs.A.r1) * dot Ai Ai *
        al.squared_sin_alpha <
      dot (cross_product cs.A.r0 cs.A.r1) Ai * dot (cross_product cs.A.r0 cs.A.r1) Ai) :
    Add_if_alpha_compatible al cs Ai bi =
      ⟨3, ⟨cs.A.r0, cs.A.r1, Ai⟩, ⟨cs.b.x, cs.b.y, bi⟩⟩ := by
  obtain ⟨n, A, b⟩ := cs
  simp only at hn hc
  subst hn
  have hp2 : to_double (dot Ai Ai) > 0 := hp
  have hc2 : ¬ to_double (dot (cross_product A.r0 A.r1) Ai * dot (cross_product A.r0 A.r1) Ai) ≤
      to_double (dot (cross_product A.r0 A.r1) (cross_product A.r0 A.r1)) *
        to_double (dot Ai Ai) * al.squared_sin_alpha :=
    not_le.mpr hc
  simp [Add_if_alpha_compatible, hp2, lAddIt, hc2, store]

theorem Add_if_reject2 (al : Alpha) (cs : Constrians) (Ai : CVector) (bi : FT)
    (hn : cs.n = 2)
    (hc : dot (cross_product cs.A.r0 cs.A.r1) Ai * dot (cross_product cs.A.r0 cs.A.r1) Ai ≤
      dot (cross_product cs.A.r0 cs.A.r1) (cross_product cs.A.r0 cs.A.r1) * dot Ai Ai *
        al.squared_sin_alpha) :
    Add_if_alpha_compatible al cs Ai bi = cs := by
  obtain ⟨n, A, b⟩ := cs
  simp only at hn hc
  subst hn
  have hc2 : to_double (dot (cross_product A.r0 A.r1) Ai * dot (cross_product A.r0 A.r1) Ai) ≤
      to_double (dot (cross_product A.r0 A.r1) (cross_product A.r0 A.r1)) *
        to_double (dot Ai Ai) * al.squared_sin_alpha := hc
  simp [Add_if_alpha_compatible, lAddIt, hc2]

/-! ## The vectors built by the gradient dispatch -/

theorem dot_comm (u v : CVector) : dot u v = dot v u := by
  simp only [dot]
  ring

theorem dot_cross_left (u v : CVector) : dot (cross_product u v) u = 0 := by
  simp only [dot, cross_product]
  ring

theorem dot_cross_right (u v : CVector) : dot (cross_product u v) v = 0 := by
  simp only [dot, cross_product]
  ring

theorem index_of_max_component_cases (v : CVector) :
    (index_of_max_component v = 0 ∧ v.y ≤ v.x ∧ v.z ≤ v.x) ∨
    (index_of_max_component v = 1 ∧ v.x < v.y ∧ v.z ≤ v.y) ∨
    (index_of_max_component v = 2 ∧ v.x < v.z ∧ v.y < v.z) := by
  unfold index_of_max_component
  simp only
  by_cases h1 : v.x < v.y
  · by_cases h2 : v.y < v.z
    · simp [h1, h2, lt_trans h1 h2]
    · simp [h1, h2, not_lt.mp h2]
  · by_cases h2 : v.x < v.z
    · simp [h1, h2, lt_of_le_of_lt (not_lt.mp h1) h2]
    · simp [h1, h2, not_lt.mp h1, not_lt.mp h2]

theorem gradient_Q0_cases (A0 : CVector) (h : A0 ≠ NULL_VECTOR) :
    (index_of_max_component ⟨A0.x * A0.x, A0.y * A0.y, A0.z * A0.z⟩ = 0 ∧ A0.x ≠ 0 ∧
      gradient_Q0 A0 = ⟨-A0.z / A0.x, 0, 1⟩) ∨
    (index_of_max_component ⟨A0.x * A0.x, A0.y * A0.y, A0.z * A0.z⟩ = 1 ∧ A0.y ≠ 0 ∧
      gradient_Q0 A0 = ⟨0, -A0.z / A0.y, 1⟩) ∨
    (index_of_max_component ⟨A0.x * A0.x, A0.y * A0.y, A0.z * A0.z⟩ = 2 ∧ A0.z ≠ 0 ∧
      gradient_Q0 A0 = ⟨1, 0, -A0.x / A0.z⟩) := by
  have hpos : 0 < dot A0 A0 := (dot_self_pos_iff A0).mpr h
  simp only [dot] at hpos
  rcases index_of_max_component_cases ⟨A0.x * A0.x, A0.y * A0.y, A0.z * A0.z⟩ with
    ⟨hi, h1, h2⟩ | ⟨hi, h1, h2⟩ | ⟨hi, h1, h2⟩
  · refine Or.inl ⟨hi, ?_, ?_⟩
    · intro hx
      simp only at h1 h2
      rw [hx] at h1 h2 hpos
      nlinarith [mul_self_nonneg A0.y, mul_self_nonneg A0.z]
    · unfold gradient_Q0
      simp only [hi]
  · refine Or.inr (Or.inl ⟨hi, ?_, ?_⟩)
    · intro hy
      simp only at h1 h2
      rw [hy] at h1 h2 hpos
      nlinarith [mul_self_nonneg A0.x, mul_self_nonneg A0.z]
    · unfold gradient_Q0
      simp only [hi]
  · refine Or.inr (Or.inr ⟨hi, ?_, ?_⟩)
    · intro hz
      simp only at h1 h2
      rw [hz] at h1 h2 hpos
      nlinarith [mul_self_nonneg A0.x, mul_self_nonneg A0.y]
    · unfold gradient_Q0
      simp only [hi]

theorem gradient_Q0_dot (A0 : CVector) (h : A0 ≠ NULL_VECTOR) : dot (gradient_Q0 A0) A0 = 0 := by
  rcases gradient_Q0_cases A0 h with ⟨_, hne, hq⟩ | ⟨_, hne, hq⟩ | ⟨_, hne, hq⟩
  · rw [hq]
    simp only [dot]
    field_simp
  · rw [hq]
    simp only [dot]
    field_simp
  · rw [hq]
    simp only [dot]
    field_simp

theorem gradient_Q0_ne (A0 : CVector) (h : A0 ≠ NULL_VECTOR) :
    gradient_Q0 A0 ≠ NULL_VECTOR := by
  rcases gradient_Q0_cases A0 h with ⟨_, _, hq⟩ | ⟨_, _, hq⟩ | ⟨_, _, hq⟩ <;>
  · rw [hq]
    simp [NULL_VECTOR]

theorem Add_from_gradient_n1 (al : Alpha) (cs : Constrians) (H : CMatrix) (c : CVector)
    (hn : cs.n = 1) :
    Add_from_gradient al cs H c =
      .ok (Add_if_alpha_compatible al
        (Add_if_alpha_compatible al cs (mulVec H (gradient_Q0 cs.A.r0))
          (-(dot (gradient_Q0 cs.A.r0) c)))
        (mulVec H (cross_product cs.A.r0 (gradient_Q0 cs.A.r0)))
        (-(dot (cross_product cs.A.r0 (gradient_Q0 cs.A.r0)) c))) := by
  simp [Add_from_gradient, hn]

/-- C11: in `Add_from_gradient` with `n == 1` and a non-zero row `A0`, the
component of `A0` that `Q0` divides by (the one of largest square) is
non-zero, `Q0` and `Q1 = A0 x Q0` are orthogonal to `A0` and to each other,
and the rows offered are `(H Q0, -(Q0 . c))` and then `(H Q1, -(Q1 . c))`. -/
theorem gradient_one_row_orthogonal (al : Alpha) (cs : Constrians) (H : CMatrix) (c : CVector)
    (hn : cs.n = 1) (hA0 : cs.A.r0 ≠ NULL_VECTOR) :
    compAt cs.A.r0 (index_of_max_component
      ⟨cs.A.r0.x * cs.A.r0.x, cs.A.r0.y * cs.A.r0.y, cs.A.r0.z * cs.A.r0.z⟩) ≠ 0 ∧
    ((index_of_max_component
        ⟨cs.A.r0.x * cs.A.r0.x, cs.A.r0.y * cs.A.r0.y, cs.A.r0.z * cs.A.r0.z⟩ = 0 ∧
        gradient_Q0 cs.A.r0 = ⟨-cs.A.r0.z / cs.A.r0.x, 0, 1⟩) ∨
      (index_of_max_component
        ⟨cs.A.r0.x * cs.A.r0.x, cs.A.r0.y * cs.A.r0.y, cs.A.r0.z * cs.A.r0.z⟩ = 1 ∧
        gradient_Q0 cs.A.r0 = ⟨0, -cs.A.r0.z / cs.A.r0.y, 1⟩) ∨
      (index_of_max_component
        ⟨cs.A.r0.x * cs.A.r0.x, cs.A.r0.y * cs.A.r0.y, cs.A.r0.z * cs.A.r0.z⟩ = 2 ∧
        gradient_Q0 cs.A.r0 = ⟨1, 0, -cs.A.r0.x / cs.A.r0.z⟩)) ∧
    dot (gradient_Q0 cs.A.r0) cs.A.r0 = 0 ∧
    dot (cross_product cs.A.r0 (gradient_Q0 cs.A.r0)) cs.A.r0 = 0 ∧
    dot (gradient_Q0 cs.A.r0) (cross_product cs.A.r0 (gradient_Q0 cs.A.r0)) = 0 ∧
    Add_from_gradient al cs H c =
      .ok (Add_if_alpha_compatible al
        (Add_if_alpha_compatible al cs (mulVec H (gradient_Q0 cs.A.r0))
          (-(dot (gradient_Q0 cs.A.r0) c)))
        (mulVec H (cross_product cs.A.r0 (gradient_Q0 cs.A.r0)))
        (-(dot (cross_product cs.A.r0 (gradient_Q0 cs.A.r0)) c))) := by
  refine ⟨?_, ?_, gradient_Q0_dot _ hA0, dot_cross_left _ _, ?_, Add_from_gradient_n1 al cs H c hn⟩
  · rcases gradient_Q0_cases cs.A.r0 hA0 with ⟨hi, hne, _⟩ | ⟨hi, hne, _⟩ | ⟨hi, hne, _⟩ <;>
    · rw [hi]
      simpa [compAt] using hne
  · rcases gradient_Q0_cases cs.A.r0 hA0 with ⟨hi, _, hq⟩ | ⟨hi, _, hq⟩ | ⟨hi, _, hq⟩
    · exact Or.inl ⟨hi, hq⟩
    · exact Or.inr (Or.inl ⟨hi, hq⟩)
    · exact Or.inr (Or.inr ⟨hi, hq⟩)
  · rw [dot_comm]
    exact dot_cross_right _ _

/-- Witness of C11: with the accepted row (1,2,3) the largest square is that
of `z`, so `Q0 = (1, 0, -1/3)`. -/
theorem gradient_one_row_orthogonal_witness :
    dot (gradient_Q0 ⟨1, 2, 3⟩) ⟨1, 2, 3⟩ = 0 ∧
    dot (cross_product ⟨1, 2, 3⟩ (gradient_Q0 ⟨1, 2, 3⟩)) ⟨1, 2, 3⟩ = 0 :=
  ⟨(gradient_one_row_orthogonal ⟨1, 0⟩ ⟨1, ⟨⟨1, 2, 3⟩, NULL_VECTOR, NULL_VECTOR⟩, ⟨7, 0, 0⟩⟩
      NULL_MATRIX NULL_VECTOR rfl (by decide)).2.2.1,
   (gradient_one_row_orthogonal ⟨1, 0⟩ ⟨1, ⟨⟨1, 2, 3⟩, NULL_VECTOR, NULL_VECTOR⟩, ⟨7, 0, 0⟩⟩
      NULL_MATRIX NULL_VECTOR rfl (by decide)).2.2.2.1⟩

/-! ## The compatibility invariant -/

theorem Add_if_full (al : Alpha) (cs : Constrians) (Ai : CVector) (bi : FT)
    (h3 : 3 ≤ cs.n) (hp : 0 < dot Ai Ai) :
    Add_if_alpha_compatible al cs Ai bi = ⟨cs.n + 1, cs.A, cs.b⟩ := by
  have hp2 : to_double (dot Ai Ai) > 0 := hp
  have e0 : cs.n ≠ 0 := by omega
  have e1 : cs.n ≠ 1 := by omega
  have e2 : cs.n ≠ 2 := by omega
  simp [Add_if_alpha_compatible, hp2, lAddIt, store, e0, e1, e2]

theorem Add_if_compatible (al : Alpha) (cs : Constrians) (Ai : CVector) (bi : FT)
    (h : Compatible al cs) : Compatible al (Add_if_alpha_compatible al cs Ai bi) := by
  obtain ⟨h0, h1, h2, h3⟩ := h
  by_cases hp : 0 < dot Ai Ai
  · have hk : cs.n = 0 ∨ cs.n = 1 ∨ cs.n = 2 ∨ 3 ≤ cs.n := by omega
    rcases hk with hn | hn | hn | hn
    · rw [Add_if_accept0 al cs Ai bi hn hp]
      exact ⟨by norm_num, fun _ => hp, fun h => absurd h (by norm_num),
        fun h => absurd h (by norm_num)⟩
    · by_cases hc : dot cs.A.r0 Ai * dot cs.A.r0 Ai ≤
          dot cs.A.r0 cs.A.r0 * dot Ai Ai * al.squared_cos_alpha
      · rw [Add_if_accept1 al cs Ai bi hn hp hc]
        exact ⟨by norm_num, fun _ => h1 (by omega), fun _ => hc,
          fun h => absurd h (by norm_num)⟩
      · rw [Add_if_reject1 al cs Ai bi hn (not_le.mp hc)]
        exact ⟨h0, h1, h2, h3⟩
    · by_cases hc : dot (cross_product cs.A.r0 cs.A.r1) (cross_product cs.A.r0 cs.A.r1) *
            dot Ai Ai * al.squared_sin_alpha <
          dot (cross_product cs.A.r0 cs.A.r1) Ai * dot (cross_product cs.A.r0 cs.A.r1) Ai
      · rw [Add_if_accept2 al cs Ai bi hn hp hc]
        exact ⟨by norm_num, fun _ => h1 (by omega), fun _ => h2 (by omega), fun _ => hc⟩
      · rw [Add_if_reject2 al cs Ai bi hn (not_lt.mp hc)]
        exact ⟨h0, h1, h2, h3⟩
    · rw [Add_if_full al cs Ai bi hn hp]
      exact ⟨by simp only; omega, fun _ => h1 (by omega), fun _ => h2 (by omega),
        fun _ => h3 hn⟩
  · have hz : dot Ai Ai = 0 := le_antisymm (not_lt.mp hp) (dot_self_nonneg Ai)
    rw [Add_if_reject_zero al cs Ai bi hz]
    exact ⟨h0, h1, h2, h3⟩

theorem Add_from_gradient_cases (al : Alpha) (cs : Constrians) (H : CMatrix) (c : CVector)
    (r : Constrians) (h : Add_from_gradient al cs H c = .ok r) :
    ∃ A1 b1 A2 b2 A3 b3,
      r = Add_if_alpha_compatible al (Add_if_alpha_compatible al
        (Add_if_alpha_compatible al cs A1 b1) A2 b2) A3 b3 := by
  unfold Add_from_gradient at h
  split_ifs at h with hpre h0 h1
  · injection h with h
    exact ⟨_, _, _, _, _, _, h.symm⟩
  · injection h with h
    refine ⟨NULL_VECTOR, 0, mulVec H (gradient_Q0 cs.A.r0), -dot (gradient_Q0 cs.A.r0) c,
      mulVec H (cross_product cs.A.r0 (gradient_Q0 cs.A.r0)),
      -dot (cross_product cs.A.r0 (gradient_Q0 cs.A.r0)) c, ?_⟩
    rw [Add_if_reject_zero al cs NULL_VECTOR 0 (by simp [dot, NULL_VECTOR])]
    exact h.symm
  · injection h with h
    refine ⟨NULL_VECTOR, 0, NULL_VECTOR, 0, mulVec H (cross_product cs.A.r0 cs.A.r1),
      -dot (cross_product cs.A.r0 cs.A.r1) c, ?_⟩
    rw [Add_if_reject_zero al cs NULL_VECTOR 0 (by simp [dot, NULL_VECTOR]),
      Add_if_reject_zero al cs NULL_VECTOR 0 (by simp [dot, NULL_VECTOR])]
    exact h.symm

theorem Add_from_gradient_compatible (al : Alpha) (cs : Constrians) (H : CMatrix)
    (c : CVector) (r : Constrians) (h : Add_from_gradient al cs H c = .ok r)
    (hc : Compatible al cs) : Compatible al r := by
  obtain ⟨A1, b1, A2, b2, A3, b3, rfl⟩ := Add_from_gradient_cases al cs H c r h
  exact Add_if_compatible al _ _ _ (Add_if_compatible al _ _ _ (Add_if_compatible al _ _ _ hc))

theorem reachable_compatible (al : Alpha) (cs : Constrians) (h : Reachable al cs) :
    Compatible al cs := by
  induction h with
  | empty =>
    exact ⟨le_refl _, fun h => absurd h (by simp [Constrians.empty]),
      fun h => absurd h (by simp [Constrians.empty]),
      fun h => absurd h (by simp [Constrians.empty])⟩
  | add_if cs Ai bi _ ih => exact Add_if_compatible al cs Ai bi ih
  | from_gradient cs H c r _ hr ih => exact Add_from_gradient_compatible al cs H c r hr ih

/-- C12 (amended): over exact arithmetic, in every system reachable from the
empty one: if `n >= 1` then row 0 has non-zero length; if `n >= 2` then
`(row0 . row1)^2 <= |row0|^2 |row1|^2 cos^2(alpha)`; and if `n == 3` then
`((row0 x row1) . row2)^2 > |row0 x row1|^2 |row2|^2 sin^2(alpha)`. -/
theorem compatibility_invariant (al : Alpha) (cs : Constrians) (h : Reachable al cs) :
    (1 ≤ cs.n → cs.A.r0 ≠ NULL_VECTOR) ∧
    (2 ≤ cs.n → (dot cs.A.r0 cs.A.r1) ^ 2 ≤
      dot cs.A.r0 cs.A.r0 * dot cs.A.r1 cs.A.r1 * al.squared_cos_alpha) ∧
    (cs.n = 3 → (dot (cross_product cs.A.r0 cs.A.r1) cs.A.r2) ^ 2 >
      dot (cross_product cs.A.r0 cs.A.r1) (cross_product cs.A.r0 cs.A.r1) *
        dot cs.A.r2 cs.A.r2 * al.squared_sin_alpha) := by
  obtain ⟨_, h1, h2, h3⟩ := reachable_compatible al cs h
  refine ⟨fun hn => (dot_self_pos_iff _).mp (h1 hn), fun hn => ?_, fun hn => ?_⟩
  · rw [sq]
    exact h2 hn
  · rw [sq]
    exact h3 (by omega)

/-- C20: a reachable full system is regular: with `sin^2(alpha) >= 0`,
`n == 3` implies `det(A) = (row0 x row1) . row2 != 0`, so `inverse_matrix`
returns a matrix and the solving step returns a point. -/
theorem full_system_regular (al : Alpha) (cs : Constrians) (h : Reachable al cs)
    (hs : 0 ≤ al.squared_sin_alpha) (hn : cs.n = 3) :
    determinant cs.A = dot (cross_product cs.A.r0 cs.A.r1) cs.A.r2 ∧
    determinant cs.A ≠ 0 ∧
    (inverse_matrix cs.A).isSome = true ∧
    (solve cs).isSome = true := by
  obtain ⟨_, _, _, h3⟩ := reachable_compatible al cs h
  have hlt := h3 (by omega)
  have hd : determinant cs.A ≠ 0 := by
    unfold determinant
    intro hz
    rw [hz] at hlt
    have := mul_nonneg (mul_nonneg (dot_self_nonneg (cross_product cs.A.r0 cs.A.r1))
      (dot_self_nonneg cs.A.r2)) hs
    linarith
  refine ⟨rfl, hd, ?_, ?_⟩
  · simp [inverse_matrix, hd]
  · simp [solve, hn, inverse_matrix, hd]

/-- Witness of C20: the three unit rows are accepted one after the other
with thresholds 1/2, and the full system they form is regular. -/
theorem full_system_regular_witness :
    Add_if_alpha_compatible ⟨1 / 2, 1 / 2⟩ (Add_if_alpha_compatible ⟨1 / 2, 1 / 2⟩
        (Add_if_alpha_compatible ⟨1 / 2, 1 / 2⟩ Constrians.empty ⟨1, 0, 0⟩ 1) ⟨0, 1, 0⟩ 2)
        ⟨0, 0, 1⟩ 3 = ⟨3, ⟨⟨1, 0, 0⟩, ⟨0, 1, 0⟩, ⟨0, 0, 1⟩⟩, ⟨1, 2, 3⟩⟩ ∧
    determinant ⟨⟨1, 0, 0⟩, ⟨0, 1, 0⟩, ⟨0, 0, 1⟩⟩ ≠ 0 :=
  have e : Add_if_alpha_compatible ⟨1 / 2, 1 / 2⟩ (Add_if_alpha_compatible ⟨1 / 2, 1 / 2⟩
        (Add_if_alpha_compatible ⟨1 / 2, 1 / 2⟩ Constrians.empty ⟨1, 0, 0⟩ 1) ⟨0, 1, 0⟩ 2)
        ⟨0, 0, 1⟩ 3 = ⟨3, ⟨⟨1, 0, 0⟩, ⟨0, 1, 0⟩, ⟨0, 0, 1⟩⟩, ⟨1, 2, 3⟩⟩ := by
    norm_num [Add_if_alpha_compatible, lAddIt, store, dot, cross_product, to_double,
      Constrians.empty, NULL_VECTOR, NULL_MATRIX]
  ⟨e, (full_system_regular ⟨1 / 2, 1 / 2⟩ ⟨3, ⟨⟨1, 0, 0⟩, ⟨0, 1, 0⟩, ⟨0, 0, 1⟩⟩, ⟨1, 2, 3⟩⟩
    (e ▸ Reachable.add_if _ _ _ (Reachable.add_if _ _ _
      (Reachable.add_if _ _ _ Reachable.empty)))
    (by norm_num) rfl).2.1⟩

/-! ## Degenerate candidates -/

/-- C13: three candidate rows with zero triple product, offered in sequence
to a system with no accepted row, never fill the system when
`sin^2(alpha) >= 0`: the count stays below 3 and the solving step returns no
point. -/
theorem coplanar_rows_no_solution (al : Alpha) (cs : Constrians) (a b c : CVector)
    (ba bb bc : FT) (hn : cs.n = 0) (hs : 0 ≤ al.squared_sin_alpha)
    (hco : dot (cross_product a b) c = 0) :
    (Add_if_alpha_compatible al (Add_if_alpha_compatible al
        (Add_if_alpha_compatible al cs a ba) b bb) c bc).n < 3 ∧
    solve (Add_if_alpha_compatible al (Add_if_alpha_compatible al
        (Add_if_alpha_compatible al cs a ba) b bb) c bc) = none := by
  have key : (Add_if_alpha_compatible al (Add_if_alpha_compatible al
        (Add_if_alpha_compatible al cs a ba) b bb) c bc).n < 3 := by
    by_cases hpa : 0 < dot a a
    · rw [Add_if_accept0 al cs a ba hn hpa]
      by_cases hpb : 0 < dot b b
      · by_cases hc : dot a b * dot a b ≤ dot a a * dot b b * al.squared_cos_alpha
        · have e1 := Add_if_accept1 al ⟨1, ⟨a, cs.A.r1, cs.A.r2⟩, ⟨ba, cs.b.y, cs.b.z⟩⟩
            b bb rfl hpb hc
          have hrej : dot (cross_product a b) c * dot (cross_product a b) c ≤
              dot (cross_product a b) (cross_product a b) * dot c c *
                al.squared_sin_alpha := by
            rw [hco]
            have := mul_nonneg (mul_nonneg (dot_self_nonneg (cross_product a b))
              (dot_self_nonneg c)) hs
            simpa using this
          have e2 := Add_if_reject2 al ⟨2, ⟨a, b, cs.A.r2⟩, ⟨ba, bb, cs.b.z⟩⟩ c bc rfl hrej
          simp only at e1
          rw [e1, e2]
          norm_num
        · have e1 := Add_if_reject1 al ⟨1, ⟨a, cs.A.r1, cs.A.r2⟩, ⟨ba, cs.b.y, cs.b.z⟩⟩
            b bb rfl (not_le.mp hc)
          rw [e1]
          rcases Add_if_alpha_compatible_n al
            ⟨1, ⟨a, cs.A.r1, cs.A.r2⟩, ⟨ba, cs.b.y, cs.b.z⟩⟩ c bc with e | e <;>
          · rw [e]
            norm_num
      · have hz : dot b b = 0 := le_antisymm (not_lt.mp hpb) (dot_self_nonneg b)
        rw [Add_if_reject_zero al _ b bb hz]
        rcases Add_if_alpha_compatible_n al
          ⟨1, ⟨a, cs.A.r1, cs.A.r2⟩, ⟨ba, cs.b.y, cs.b.z⟩⟩ c bc with e | e <;>
        · rw [e]
          norm_num
    · have hz : dot a a = 0 := le_antisymm (not_lt.mp hpa) (dot_self_nonneg a)
      rw [Add_if_reject_zero al cs a ba hz]
      rcases Add_if_alpha_compatible_n al cs b bb with e1 | e1 <;>
      rcases Add_if_alpha_compatible_n al (Add_if_alpha_compatible al cs b bb) c bc
        with e2 | e2 <;>
      omega
  refine ⟨key, ?_⟩
  have hne : (Add_if_alpha_compatible al (Add_if_alpha_compatible al
        (Add_if_alpha_compatible al cs a ba) b bb) c bc).n ≠ 3 := by omega
  simp [solve, hne]

/-- Witness of C13: the rows (1,0,0), (0,1,0), (1,1,0) lie in one plane; the
third is rejected and no point is returned. -/
theorem coplanar_rows_no_solution_witness :
    solve (Add_if_alpha_compatible ⟨1 / 2, 1 / 2⟩ (Add_if_alpha_compatible ⟨1 / 2, 1 / 2⟩
        (Add_if_alpha_compatible ⟨1 / 2, 1 / 2⟩ Constrians.empty ⟨1, 0, 0⟩ 1) ⟨0, 1, 0⟩ 2)
        ⟨1, 1, 0⟩ 3) = none :=
  (coplanar_rows_no_solution ⟨1 / 2, 1 / 2⟩ Constrians.empty ⟨1, 0, 0⟩ ⟨0, 1, 0⟩ ⟨1, 1, 0⟩
    1 2 3 rfl (by norm_num) (by norm_num [dot, cross_product])).2

/-! ## Shape optimization -/

theorem link_foldl (l : List Point) (acc : CVector) :
    l.foldl (fun c p => vadd c (psub ORIGIN p)) acc =
      ⟨acc.x - (l.map fun p => p.x).sum, acc.y - (l.map fun p => p.y).sum,
        acc.z - (l.map fun p => p.z).sum⟩ := by
  induction l generalizing acc with
  | nil => simp
  | cons p ps ih =>
    rw [List.foldl_cons, ih]
    simp only [vadd, psub, ORIGIN, List.map_cons, List.sum_cons]
    congr 1 <;> ring

theorem link_foldl_null (l : List Point) :
    l.foldl (fun c p => vadd c (psub ORIGIN p)) NULL_VECTOR =
      ⟨-(l.map fun p => p.x).sum, -(l.map fun p => p.y).sum, -(l.map fun p => p.z).sum⟩ := by
  rw [link_foldl]
  simp [NULL_VECTOR]

theorem Add_from_gradient_n0 (al : Alpha) (cs : Constrians) (H : CMatrix) (c : CVector)
    (hn : cs.n = 0) :
    Add_from_gradient al cs H c =
      .ok (Add_if_alpha_compatible al (Add_if_alpha_compatible al
        (Add_if_alpha_compatible al cs H.r0 (-c.x)) H.r1 (-c.y)) H.r2 (-c.z)) := by
  simp [Add_from_gradient, hn]

theorem diag_rows_accepted (al : Alpha) (cs : Constrians) (s b0 b1 b2 : FT)
    (hn : cs.n = 0) (hs0 : 0 < s) (hc : 0 ≤ al.squared_cos_alpha)
    (hs : al.squared_sin_alpha < 1) :
    Add_if_alpha_compatible al (Add_if_alpha_compatible al
        (Add_if_alpha_compatible al cs ⟨s, 0, 0⟩ b0) ⟨0, s, 0⟩ b1) ⟨0, 0, s⟩ b2 =
      ⟨3, ⟨⟨s, 0, 0⟩, ⟨0, s, 0⟩, ⟨0, 0, s⟩⟩, ⟨b0, b1, b2⟩⟩ := by
  have hss : 0 < s * s := mul_pos hs0 hs0
  rw [Add_if_accept0 al cs ⟨s, 0, 0⟩ b0 hn (by simpa [dot] using hss)]
  rw [Add_if_accept1 al _ ⟨0, s, 0⟩ b1 rfl (by simpa [dot] using hss)
    (by
      simp only [dot]
      have := mul_nonneg (mul_nonneg (le_of_lt hss) (le_of_lt hss)) hc
      simpa using this)]
  rw [Add_if_accept2 al _ ⟨0, 0, s⟩ b2 rfl (by simpa [dot] using hss)
    (by
      simp only [dot, cross_product]
      have h6 : 0 < s * s * (s * s) * (s * s) := mul_pos (mul_pos hss hss) hss
      nlinarith)]

theorem solve_diag (s b0 b1 b2 : FT) (hs0 : 0 < s) :
    solve ⟨3, ⟨⟨s, 0, 0⟩, ⟨0, s, 0⟩, ⟨0, 0, s⟩⟩, ⟨b0, b1, b2⟩⟩ =
      some ⟨b0 / s, b1 / s, b2 / s⟩ := by
  have hne : s ≠ 0 := ne_of_gt hs0
  have hd : determinant ⟨⟨s, 0, 0⟩, ⟨0, s, 0⟩, ⟨0, 0, s⟩⟩ ≠ 0 := by
    simp [determinant, dot, cross_product, hne]
  simp only [solve, inverse_matrix, hd, if_true, if_false, vecMul]
  simp only [determinant, dot, cross_product]
  congr 2 <;>
  · field_simp
    ring

/-- C15: for a non-empty link, a system with no accepted row and thresholds
`cos^2(alpha) >= 0`, `sin^2(alpha) < 1`, the shape-optimization family offers the
gradient `H = diag(|Link|)`, `c = -(sum of the link positions)`, its three rows
are all accepted, and the point solved for is the centroid of the link. -/
theorem shape_family_centroid (al : Alpha) (cs : Constrians) (aLink : List Point)
    (hn : cs.n = 0) (hl : aLink ≠ []) (hc : 0 ≤ al.squared_cos_alpha)
    (hs : al.squared_sin_alpha < 1) :
    Add_shape_optimization_constrians al cs aLink =
      Add_from_gradient al cs
        ⟨⟨(aLink.length : FT), 0, 0⟩, ⟨0, (aLink.length : FT), 0⟩,
          ⟨0, 0, (aLink.length : FT)⟩⟩
        ⟨-(aLink.map fun p => p.x).sum, -(aLink.map fun p => p.y).sum,
          -(aLink.map fun p => p.z).sum⟩ ∧
    Add_shape_optimization_constrians al cs aLink =
      .ok ⟨3, ⟨⟨(aLink.length : FT), 0, 0⟩, ⟨0, (aLink.length : FT), 0⟩,
          ⟨0, 0, (aLink.length : FT)⟩⟩,
        ⟨(aLink.map fun p => p.x).sum, (aLink.map fun p => p.y).sum,
          (aLink.map fun p => p.z).sum⟩⟩ ∧
    solve ⟨3, ⟨⟨(aLink.length : FT), 0, 0⟩, ⟨0, (aLink.length : FT), 0⟩,
          ⟨0, 0, (aLink.length : FT)⟩⟩,
        ⟨(aLink.map fun p => p.x).sum, (aLink.map fun p => p.y).sum,
          (aLink.map fun p => p.z).sum⟩⟩ =
      some ⟨(aLink.map fun p => p.x).sum / (aLink.length : FT),
        (aLink.map fun p => p.y).sum / (aLink.length : FT),
        (aLink.map fun p => p.z).sum / (aLink.length : FT)⟩ := by
  have hlen : 0 < aLink.length := List.length_pos.mpr hl
  have hs0 : (0 : FT) < (aLink.length : FT) := by exact_mod_cast hlen
  have e1 : Add_shape_optimization_constrians al cs aLink =
      Add_from_gradient al cs
        ⟨⟨(aLink.length : FT), 0, 0⟩, ⟨0, (aLink.length : FT), 0⟩,
          ⟨0, 0, (aLink.length : FT)⟩⟩
        ⟨-(aLink.map fun p => p.x).sum, -(aLink.map fun p => p.y).sum,
          -(aLink.map fun p => p.z).sum⟩ := by
    unfold Add_shape_optimization_constrians
    simp only [link_foldl_null]
  refine ⟨e1, ?_, solve_diag _ _ _ _ hs0⟩
  rw [e1, Add_from_gradient_n0 al cs _ _ hn]
  simp only [neg_neg]
  rw [diag_rows_accepted al cs _ _ _ _ hn hs0 hc hs]

/-- Witness of C15: the link (0,0,0), (2,0,0), (1,3,0) has centroid (1,1,0). -/
theorem shape_family_centroid_witness :
    solve ⟨3, ⟨⟨((3 : Nat) : FT), 0, 0⟩, ⟨0, ((3 : Nat) : FT), 0⟩, ⟨0, 0, ((3 : Nat) : FT)⟩⟩,
        ⟨([(⟨0, 0, 0⟩ : Point), ⟨2, 0, 0⟩, ⟨1, 3, 0⟩].map fun p => p.x).sum,
          ([(⟨0, 0, 0⟩ : Point), ⟨2, 0, 0⟩, ⟨1, 3, 0⟩].map fun p => p.y).sum,
          ([(⟨0, 0, 0⟩ : Point), ⟨2, 0, 0⟩, ⟨1, 3, 0⟩].map fun p => p.z).sum⟩⟩ =
      some ⟨([(⟨0, 0, 0⟩ : Point), ⟨2, 0, 0⟩, ⟨1, 3, 0⟩].map fun p => p.x).sum /
          ((3 : Nat) : FT),
        ([(⟨0, 0, 0⟩ : Point), ⟨2, 0, 0⟩, ⟨1, 3, 0⟩].map fun p => p.y).sum / ((3 : Nat) : FT),
        ([(⟨0, 0, 0⟩ : Point), ⟨2, 0, 0⟩, ⟨1, 3, 0⟩].map fun p => p.z).sum /
          ((3 : Nat) : FT)⟩ :=
  (shape_family_centroid ⟨1 / 2, 1 / 2⟩ Constrians.empty
    [⟨0, 0, 0⟩, ⟨2, 0, 0⟩, ⟨1, 3, 0⟩] rfl (by simp) (by norm_num) (by norm_num)).2.2

/-! ## The accumulation pass, stage by stage -/

theorem KeepsRow0.refl (a : Constrians) : KeepsRow0 a a := fun h => ⟨h, rfl, rfl⟩

theorem KeepsRow0.trans {a b c : Constrians} (h1 : KeepsRow0 a b) (h2 : KeepsRow0 b c) :
    KeepsRow0 a c := by
  intro h
  obtain ⟨hb, e1, e2⟩ := h1 h
  obtain ⟨hc, e3, e4⟩ := h2 hb
  exact ⟨hc, e3.trans e1, e4.trans e2⟩

theorem Add_if_keeps_row0 (al : Alpha) (cs : Constrians) (Ai : CVector) (bi : FT) :
    KeepsRow0 cs (Add_if_alpha_compatible al cs Ai bi) := by
  intro h
  have e0 : cs.n ≠ 0 := by omega
  unfold Add_if_alpha_compatible store
  simp only [e0, if_false]
  split_ifs <;> simp <;> omega

theorem Add_from_gradient_keeps_row0 (al : Alpha) (cs : Constrians) (H : CMatrix)
    (c : CVector) (r : Constrians) (h : Add_from_gradient al cs H c = .ok r) :
    KeepsRow0 cs r := by
  obtain ⟨A1, b1, A2, b2, A3, b3, rfl⟩ := Add_from_gradient_cases al cs H c r h
  exact ((Add_if_keeps_row0 al cs A1 b1).trans (Add_if_keeps_row0 al _ A2 b2)).trans
    (Add_if_keeps_row0 al _ A3 b3)

theorem accumulate_stages (LT_product : CVector → CMatrix) (al : Alpha) (mParams : Params)
    (nb : Neighborhood) :
    ∃ c1 c2 c3 c4 : Constrians,
      (match nb.lBdry with
        | some bd => Add_boundary_preservation_constrians LT_product al Constrians.empty bd
        | none => Except.ok Constrians.empty) = .ok c1 ∧
      (if c1.n < 3 then Add_volume_preservation_constrians al c1 nb.lTriangles else c1) = c2 ∧
      (if c2.n < 3 then
          Add_boundary_and_volume_optimization_constrians LT_product al mParams nb.p nb.q c2
            nb.lBdry nb.lTriangles
        else Except.ok c2) = .ok c3 ∧
      (if c3.n < 3 then Add_shape_optimization_constrians al c3 nb.lLink
        else Except.ok c3) = .ok c4 ∧
      accumulate LT_product al mParams nb = .ok c4 ∧
      (0 ≤ c1.n ∧ c1.n ≤ c2.n ∧ c2.n ≤ c3.n ∧ c3.n ≤ c4.n ∧ c4.n ≤ 3) ∧
      KeepsRow0 c1 c2 ∧ KeepsRow0 c2 c3 ∧ KeepsRow0 c3 c4 := by
  -- family 1
  have h1 : ∃ c1, (match nb.lBdry with
      | some bd => Add_boundary_preservation_constrians LT_product al Constrians.empty bd
      | none => Except.ok Constrians.empty) = .ok c1 ∧ 0 ≤ c1.n ∧ c1.n ≤ 3 := by
    cases nb.lBdry with
    | none => exact ⟨_, rfl, by simp [Constrians.empty], by simp [Constrians.empty]⟩
    | some bd =>
      obtain ⟨r, hr, hr0, hr3⟩ := Add_from_gradient_ok al Constrians.empty
        (LT_product (vadd (vadd bd.op bd.pq) bd.qr))
        (cross_product (vadd (vadd bd.op bd.pq) bd.qr) (vadd (vadd bd.opN bd.pqN) bd.qrN))
        (by simp [Constrians.empty]) (by simp [Constrians.empty])
      refine ⟨r, hr, ?_, hr3⟩
      have : Constrians.empty.n = 0 := rfl
      omega
  obtain ⟨c1, hc1, h10, h13⟩ := h1
  -- family 2
  have h2 : ∃ c2, (if c1.n < 3 then Add_volume_preservation_constrians al c1 nb.lTriangles
      else c1) = c2 ∧ c1.n ≤ c2.n ∧ c2.n ≤ 3 ∧ KeepsRow0 c1 c2 := by
    refine ⟨_, rfl, ?_, ?_, ?_⟩
    · split_ifs with h
      · unfold Add_volume_preservation_constrians
        rcases Add_if_alpha_compatible_n al c1 (volume_sums nb.lTriangles).1
          (volume_sums nb.lTriangles).2 with e | e <;> simp only [e] <;> omega
      · exact le_refl _
    · split_ifs with h
      · unfold Add_volume_preservation_constrians
        rcases Add_if_alpha_compatible_n al c1 (volume_sums nb.lTriangles).1
          (volume_sums nb.lTriangles).2 with e | e <;> simp only [e] <;> omega
      · exact h13
    · split_ifs with h
      · exact Add_if_keeps_row0 al c1 _ _
      · exact KeepsRow0.refl c1
  obtain ⟨c2, hc2, h12, h23, k12⟩ := h2
  have h20 : 0 ≤ c2.n := le_trans h10 h12
  -- family 3
  have h3 : ∃ c3, (if c2.n < 3 then
        Add_boundary_and_volume_optimization_constrians LT_product al mParams nb.p nb.q c2
          nb.lBdry nb.lTriangles
      else Except.ok c2) = .ok c3 ∧ c2.n ≤ c3.n ∧ c3.n ≤ 3 ∧ KeepsRow0 c2 c3 := by
    split_ifs with h
    · obtain ⟨r, hr, hr0, hr3⟩ := Add_from_gradient_ok al c2
        (boundary_and_volume_gradient LT_product mParams nb.p nb.q nb.lBdry nb.lTriangles).1
        (boundary_and_volume_gradient LT_product mParams nb.p nb.q nb.lBdry nb.lTriangles).2
        h20 (by omega)
      exact ⟨r, hr, hr0, hr3, Add_from_gradient_keeps_row0 al c2 _ _ r hr⟩
    · exact ⟨c2, rfl, le_refl _, h23, KeepsRow0.refl c2⟩
  obtain ⟨c3, hc3, h23n, h33, k23⟩ := h3
  have h30 : 0 ≤ c3.n := le_trans h20 h23n
  -- family 4
  have h4 : ∃ c4, (if c3.n < 3 then Add_shape_optimization_constrians al c3 nb.lLink
      else Except.ok c3) = .ok c4 ∧ c3.n ≤ c4.n ∧ c4.n ≤ 3 ∧ KeepsRow0 c3 c4 := by
    split_ifs with h
    · obtain ⟨r, hr, hr0, hr3⟩ := Add_from_gradient_ok al c3
        ⟨⟨(nb.lLink.length : FT), 0, 0⟩, ⟨0, (nb.lLink.length : FT), 0⟩,
          ⟨0, 0, (nb.lLink.length : FT)⟩⟩
        (nb.lLink.foldl (fun c p => vadd c (psub ORIGIN p)) NULL_VECTOR) h30 (by omega)
      exact ⟨r, hr, hr0, hr3, Add_from_gradient_keeps_row0 al c3 _ _ r hr⟩
    · exact ⟨c3, rfl, le_refl _, h33, KeepsRow0.refl c3⟩
  obtain ⟨c4, hc4, h34, h43, k34⟩ := h4
  refine ⟨c1, c2, c3, c4, hc1, hc2, hc3, hc4, ?_, ⟨h10, h12, h23n, h34, h43⟩, k12, k23, k34⟩
  unfold accumulate
  cases hb : nb.lBdry with
  | none =>
    rw [hb] at hc1 hc3
    simp only at hc1
    injection hc1 with hc1
    subst hc1
    simp only [hc2, hc3]
    exact hc4
  | some bd =>
    rw [hb] at hc1 hc3
    simp only at hc1
    simp only [hc1, hc2, hc3]
    exact hc4

/-- C17: one accumulation pass from the empty system runs the families in
the order boundary preservation, volume preservation, boundary+volume
optimization, shape optimization, and ends without a fault: every call of
`Add_from_gradient` is entered with `n` in {0,1,2}, the count never decreases
and never exceeds 3, and once `n == 3` the later families leave the system
unchanged. -/
theorem families_in_order (LT_product : CVector → CMatrix) (al : Alpha) (mParams : Params)
    (nb : Neighborhood) :
    ∃ c1 c2 c3 c4 : Constrians,
      (match nb.lBdry with
        | some bd => Add_boundary_preservation_constrians LT_product al Constrians.empty bd
        | none => Except.ok Constrians.empty) = .ok c1 ∧
      (if c1.n < 3 then Add_volume_preservation_constrians al c1 nb.lTriangles else c1) = c2 ∧
      (if c2.n < 3 then
          Add_boundary_and_volume_optimization_constrians LT_product al mParams nb.p nb.q c2
            nb.lBdry nb.lTriangles
        else Except.ok c2) = .ok c3 ∧
      (if c3.n < 3 then Add_shape_optimization_constrians al c3 nb.lLink
        else Except.ok c3) = .ok c4 ∧
      accumulate LT_product al mParams nb = .ok c4 ∧
      Constrians.empty.n = 0 ∧
      (c2.n < 3 → 0 ≤ c2.n ∧ c2.n ≤ 2) ∧
      (c3.n < 3 → 0 ≤ c3.n ∧ c3.n ≤ 2) ∧
      (0 ≤ c1.n ∧ c1.n ≤ c2.n ∧ c2.n ≤ c3.n ∧ c3.n ≤ c4.n ∧ c4.n ≤ 3) ∧
      (c1.n = 3 → c2 = c1 ∧ c3 = c1 ∧ c4 = c1) ∧
      (c2.n = 3 → c3 = c2 ∧ c4 = c2) ∧
      (c3.n = 3 → c4 = c3) := by
  obtain ⟨c1, c2, c3, c4, e1, e2, e3, e4, hacc, ⟨h1, h2, h3, h4, h5⟩, _, _, _⟩ :=
    accumulate_stages LT_product al mParams nb
  have s3 : c3.n = 3 → c4 = c3 := by
    intro h
    have hlt : ¬ c3.n < 3 := by omega
    rw [if_neg hlt] at e4
    injection e4 with e4
    exact e4.symm
  have s2 : c2.n = 3 → c3 = c2 := by
    intro h
    have hlt : ¬ c2.n < 3 := by omega
    rw [if_neg hlt] at e3
    injection e3 with e3
    exact e3.symm
  have s1 : c1.n = 3 → c2 = c1 := by
    intro h
    have hlt : ¬ c1.n < 3 := by omega
    rw [if_neg hlt] at e2
    exact e2.symm
  refine ⟨c1, c2, c3, c4, e1, e2, e3, e4, hacc, rfl, fun h => ⟨by omega, by omega⟩,
    fun h => ⟨by omega, by omega⟩, ⟨h1, h2, h3, h4, h5⟩, ?_, ?_, s3⟩
  · intro h
    have a := s1 h
    have b := s2 (by rw [a]; exact h)
    have c := s3 (by rw [b, a]; exact h)
    exact ⟨a, by rw [b, a], by rw [c, b, a]⟩
  · intro h
    have b := s2 h
    have c := s3 (by rw [b]; exact h)
    exact ⟨b, by rw [c, b]⟩

/-! ## Boundary priority -/

theorem null_dot_null : dot NULL_VECTOR NULL_VECTOR = 0 := by
  simp [dot, NULL_VECTOR]

theorem smul_null (k : FT) : smul k NULL_VECTOR = NULL_VECTOR := by
  simp [smul, NULL_VECTOR]

theorem dot_smul_right (k : FT) (u v : CVector) : dot u (smul k v) = k * dot u v := by
  simp only [dot, smul]
  ring

theorem dot_smul_left (k : FT) (u v : CVector) : dot (smul k u) v = k * dot u v := by
  simp only [dot, smul]
  ring

theorem cross_smul_right (k : FT) (u v : CVector) :
    cross_product u (smul k v) = smul k (cross_product u v) := by
  simp only [cross_product, smul]
  congr 1 <;> ring

theorem dot_cross_self (u v : CVector) :
    dot (cross_product u v) (cross_product u v) = dot u u * dot v v - dot u v * dot u v := by
  simp only [dot, cross_product]
  ring

theorem mulVec_diag (s : FT) (v : CVector) :
    mulVec ⟨⟨s, 0, 0⟩, ⟨0, s, 0⟩, ⟨0, 0, s⟩⟩ v = smul s v := by
  simp [mulVec, dot, smul]

theorem shape_rows_accepted_one (al : Alpha) (cs : Constrians) (s : FT) (c : CVector)
    (hn : cs.n = 1) (hA0 : cs.A.r0 ≠ NULL_VECTOR) (hs0 : 0 < s)
    (hc : 0 ≤ al.squared_cos_alpha) (hs : al.squared_sin_alpha < 1) :
    Add_from_gradient al cs ⟨⟨s, 0, 0⟩, ⟨0, s, 0⟩, ⟨0, 0, s⟩⟩ c =
      .ok ⟨3, ⟨cs.A.r0, smul s (gradient_Q0 cs.A.r0),
          smul s (cross_product cs.A.r0 (gradient_Q0 cs.A.r0))⟩,
        ⟨cs.b.x, -(dot (gradient_Q0 cs.A.r0) c),
          -(dot (cross_product cs.A.r0 (gradient_Q0 cs.A.r0)) c)⟩⟩ := by
  rw [Add_from_gradient_n1 al cs _ c hn, mulVec_diag, mulVec_diag]
  generalize hQ0 : gradient_Q0 cs.A.r0 = Q0
  have hq0 : 0 < dot Q0 Q0 := by
    rw [← hQ0]
    exact (dot_self_pos_iff _).mpr (gradient_Q0_ne _ hA0)
  have horth : dot cs.A.r0 Q0 = 0 := by
    rw [← hQ0, dot_comm]
    exact gradient_Q0_dot _ hA0
  have ha0 : 0 < dot cs.A.r0 cs.A.r0 := (dot_self_pos_iff _).mpr hA0
  have hss : 0 < s * s := mul_pos hs0 hs0
  have hq1 : 0 < dot (cross_product cs.A.r0 Q0) (cross_product cs.A.r0 Q0) := by
    rw [dot_cross_self, horth]
    have := mul_pos ha0 hq0
    linarith
  have hp1 : 0 < dot (smul s Q0) (smul s Q0) := by
    rw [dot_smul_left, dot_smul_right]
    exact mul_pos hs0 (mul_pos hs0 hq0)
  have e1 := Add_if_accept1 al cs (smul s Q0) (-(dot Q0 c)) hn hp1
    (by
      rw [dot_smul_right, horth]
      have := mul_nonneg (mul_nonneg (le_of_lt ha0) (le_of_lt hp1)) hc
      simpa using this)
  rw [e1]
  have hp2 : 0 < dot (smul s (cross_product cs.A.r0 Q0)) (smul s (cross_product cs.A.r0 Q0)) := by
    rw [dot_smul_left, dot_smul_right]
    exact mul_pos hs0 (mul_pos hs0 hq1)
  have e2 := Add_if_accept2 al
    ⟨2, ⟨cs.A.r0, smul s Q0, cs.A.r2⟩, ⟨cs.b.x, -(dot Q0 c), cs.b.z⟩⟩
    (smul s (cross_product cs.A.r0 Q0)) (-(dot (cross_product cs.A.r0 Q0) c)) rfl hp2
    (by
      simp only
      rw [cross_smul_right]
      have hW := mul_pos hp2 hp2
      nlinarith)
  rw [e2]

theorem extract_around_Q_two_steps (m : TSM) (mQ vt v1 : vertex_descriptor)
    (mQ_P : edge_descriptor) (rLink : List vertex_descriptor) (rTriangles : List Facet)
    (fuel : Nat) (hinv : ∀ e, m.next_edge_cw (m.next_edge_ccw e) = e)
    (hne : m.next_edge_ccw mQ_P ≠ mQ_P) :
    extract_around_Q m mQ vt mQ_P (fuel + 2)
        (m.next_edge_ccw (m.next_edge_ccw mQ_P), v1, rLink, rTriangles) =
      some
        (if m.target (m.next_edge_ccw mQ_P) ≠ vt then
            (if m.target (m.next_edge_ccw (m.next_edge_ccw mQ_P)) ≠ vt then
                rLink ++ [m.target (m.next_edge_ccw (m.next_edge_ccw mQ_P))]
              else rLink) ++ [m.target (m.next_edge_ccw mQ_P)]
          else
            (if m.target (m.next_edge_ccw (m.next_edge_ccw mQ_P)) ≠ vt then
                rLink ++ [m.target (m.next_edge_ccw (m.next_edge_ccw mQ_P))]
              else rLink),
         Extract_triangle m mQ (m.target (m.next_edge_ccw (m.next_edge_ccw mQ_P)))
           (m.target (m.next_edge_ccw mQ_P)) (m.next_edge_ccw mQ_P)
           (Extract_triangle m mQ v1 (m.target (m.next_edge_ccw (m.next_edge_ccw mQ_P)))
             (m.next_edge_ccw (m.next_edge_ccw mQ_P)) rTriangles)) := by
  simp only [extract_around_Q, hinv, hne, ne_eq, not_false_eq_true, if_true, not_true_eq_false,
    if_false]

/-- C18 (evaluation at the failing input): on the closed tetrahedron, whose
`next_edge_ccw` is a cyclic permutation of the three outgoing edges of every
vertex with inverse `next_edge_cw`, the link extracted for the edge 0 - 1 is
`[2, 3, 3]`: the vertex 3 is pushed twice. -/
theorem tetrahedron_link_repeats :
    (∀ s t : Fin 4, s ≠ t →
      tetrahedron.next_edge_cw (tetrahedron.next_edge_ccw (4 * s.val + t.val)) =
        4 * s.val + t.val ∧
      tetrahedron.next_edge_ccw (tetrahedron.next_edge_cw (4 * s.val + t.val)) =
        4 * s.val + t.val ∧
      tetrahedron.next_edge_ccw (4 * s.val + t.val) ≠ 4 * s.val + t.val ∧
      tetrahedron.next_edge_ccw (tetrahedron.next_edge_ccw
        (tetrahedron.next_edge_ccw (4 * s.val + t.val))) = 4 * s.val + t.val) ∧
    (Extract_triangles_and_link tetrahedron 0 1 1 4 12).map (fun r => r.1) =
      some [2, 3, 3] ∧
    List.count 3 [2, 3, 3] = 2 := by
  decide

/-- C19 (evaluation at the failing input): on the closed tetrahedron the
triangles extracted for the edge 0 - 1 are the faces (0,1,2), (0,2,3), (0,3,1)
and twice the face (1,3,2): that face contributes two entries. -/
theorem tetrahedron_face_counted_twice :
    (Extract_triangles_and_link tetrahedron 0 1 1 4 12).map (fun r => r.2) =
      some [(0, 1, 2), (0, 2, 3), (0, 3, 1), (1, 3, 2), (1, 3, 2)] ∧
    List.count ((1, 3, 2) : Facet)
      [(0, 1, 2), (0, 2, 3), (0, 3, 1), (1, 3, 2), (1, 3, 2)] = 2 := by
  decide

/-! ## The shape family completes the system -/

theorem Add_if_row1 (al : Alpha) (cs : Constrians) (Ai : CVector) (bi : FT)
    (h : Row1Nonzero cs) : Row1Nonzero (Add_if_alpha_compatible al cs Ai bi) := by
  by_cases hp : 0 < dot Ai Ai
  · have hp2 : to_double (dot Ai Ai) > 0 := hp
    unfold Add_if_alpha_compatible
    simp only [hp2, if_true]
    split_ifs with hl
    · unfold store
      split_ifs with h0 h1 h2
      · intro hn
        simp only [h0] at hn
        norm_num at hn
      · intro _
        exact hp
      · intro _
        exact h (by omega)
      · intro hn
        simp only at hn
        exact h (by omega)
    · exact h
  · have hz : dot Ai Ai = 0 := le_antisymm (not_lt.mp hp) (dot_self_nonneg Ai)
    rw [Add_if_reject_zero al cs Ai bi hz]
    exact h

theorem Add_from_gradient_row1 (al : Alpha) (cs : Constrians) (H : CMatrix) (c : CVector)
    (r : Constrians) (h : Add_from_gradient al cs H c = .ok r) (hr : Row1Nonzero cs) :
    Row1Nonzero r := by
  obtain ⟨A1, b1, A2, b2, A3, b3, rfl⟩ := Add_from_gradient_cases al cs H c r h
  exact Add_if_row1 al _ _ _ (Add_if_row1 al _ _ _ (Add_if_row1 al _ _ _ hr))

theorem reachable_row1 (al : Alpha) (cs : Constrians) (h : Reachable al cs) :
    Row1Nonzero cs := by
  induction h with
  | empty =>
    intro hn
    simp [Constrians.empty] at hn
  | add_if cs Ai bi _ ih => exact Add_if_row1 al cs Ai bi ih
  | from_gradient cs H c r _ hr ih => exact Add_from_gradient_row1 al cs H c r hr ih

theorem Add_from_gradient_n2 (al : Alpha) (cs : Constrians) (H : CMatrix) (c : CVector)
    (hn : cs.n = 2) :
    Add_from_gradient al cs H c =
      .ok (Add_if_alpha_compatible al cs (mulVec H (cross_product cs.A.r0 cs.A.r1))
        (-(dot (cross_product cs.A.r0 cs.A.r1) c))) := by
  simp [Add_from_gradient, hn]

theorem shape_row_accepted_two (al : Alpha) (cs : Constrians) (s : FT) (c : CVector)
    (hn : cs.n = 2) (hr0 : 0 < dot cs.A.r0 cs.A.r0) (hr1 : 0 < dot cs.A.r1 cs.A.r1)
    (hcos : dot cs.A.r0 cs.A.r1 * dot cs.A.r0 cs.A.r1 ≤
      dot cs.A.r0 cs.A.r0 * dot cs.A.r1 cs.A.r1 * al.squared_cos_alpha)
    (hs0 : 0 < s) (hc1 : al.squared_cos_alpha < 1) (hs : al.squared_sin_alpha < 1) :
    Add_from_gradient al cs ⟨⟨s, 0, 0⟩, ⟨0, s, 0⟩, ⟨0, 0, s⟩⟩ c =
      .ok ⟨3, ⟨cs.A.r0, cs.A.r1, smul s (cross_product cs.A.r0 cs.A.r1)⟩,
        ⟨cs.b.x, cs.b.y, -(dot (cross_product cs.A.r0 cs.A.r1) c)⟩⟩ := by
  rw [Add_from_gradient_n2 al cs _ c hn, mulVec_diag]
  generalize hQ : cross_product cs.A.r0 cs.A.r1 = Q at *
  have hW : 0 < dot Q Q := by
    rw [← hQ, dot_cross_self]
    have hprod : 0 < dot cs.A.r0 cs.A.r0 * dot cs.A.r1 cs.A.r1 := mul_pos hr0 hr1
    have : dot cs.A.r0 cs.A.r0 * dot cs.A.r1 cs.A.r1 * al.squared_cos_alpha <
        dot cs.A.r0 cs.A.r0 * dot cs.A.r1 cs.A.r1 := by
      have := mul_lt_mul_of_pos_left hc1 hprod
      simpa using this
    linarith
  have hp : 0 < dot (smul s Q) (smul s Q) := by
    rw [dot_smul_left, dot_smul_right]
    exact mul_pos hs0 (mul_pos hs0 hW)
  have hacc : dot Q Q * dot (smul s Q) (smul s Q) * al.squared_sin_alpha <
      dot Q (smul s Q) * dot Q (smul s Q) := by
    simp only [dot_smul_left, dot_smul_right]
    have h4 : 0 < dot Q Q * (s * (s * dot Q Q)) :=
      mul_pos hW (mul_pos hs0 (mul_pos hs0 hW))
    nlinarith
  have e := Add_if_accept2 al cs (smul s Q) (-(dot Q c)) hn hp (by rw [hQ]; exact hacc)
  rw [e]

theorem shape_family_fills (al : Alpha) (cs : Constrians) (aLink : List Point)
    (hcomp : Compatible al cs) (hrow1 : Row1Nonzero cs) (h2 : cs.n ≤ 2) (hl : aLink ≠ [])
    (hc0 : 0 ≤ al.squared_cos_alpha) (hc1 : al.squared_cos_alpha < 1)
    (hs1 : al.squared_sin_alpha < 1) :
    ∃ r, Add_shape_optimization_constrians al cs aLink = .ok r ∧ r.n = 3 ∧
      (cs.n = 0 → r.A = ⟨⟨(aLink.length : FT), 0, 0⟩, ⟨0, (aLink.length : FT), 0⟩,
        ⟨0, 0, (aLink.length : FT)⟩⟩) ∧
      (cs.n = 1 → r.A = ⟨cs.A.r0, smul (aLink.length : FT) (gradient_Q0 cs.A.r0),
        smul (aLink.length : FT) (cross_product cs.A.r0 (gradient_Q0 cs.A.r0))⟩) ∧
      (cs.n = 2 → r.A = ⟨cs.A.r0, cs.A.r1,
        smul (aLink.length : FT) (cross_product cs.A.r0 cs.A.r1)⟩) := by
  obtain ⟨h0, k1, k2, _⟩ := hcomp
  have hlen : 0 < aLink.length := List.length_pos.mpr hl
  have hs0 : (0 : FT) < (aLink.length : FT) := by exact_mod_cast hlen
  have hk : cs.n = 0 ∨ cs.n = 1 ∨ cs.n = 2 := by omega
  unfold Add_shape_optimization_constrians
  rcases hk with hn | hn | hn
  · rw [Add_from_gradient_n0 al cs _ _ hn]
    simp only
    rw [diag_rows_accepted al cs _ _ _ _ hn hs0 hc0 hs1]
    exact ⟨_, rfl, rfl, fun _ => rfl, fun h => absurd h (by omega), fun h => absurd h (by omega)⟩
  · have hA0 : cs.A.r0 ≠ NULL_VECTOR := (dot_self_pos_iff _).mp (k1 (by omega))
    simp only
    rw [shape_rows_accepted_one al cs _ _ hn hA0 hs0 hc0 hs1]
    exact ⟨_, rfl, rfl, fun h => absurd h (by omega), fun _ => rfl, fun h => absurd h (by omega)⟩
  · simp only
    rw [shape_row_accepted_two al cs _ _ hn (k1 (by omega)) (hrow1 (by omega)) (k2 (by omega))
      hs0 hc1 hs1]
    exact ⟨_, rfl, rfl, fun h => absurd h (by omega), fun h => absurd h (by omega), fun _ => rfl⟩

theorem accumulate_reachable (LT_product : CVector → CMatrix) (al : Alpha) (mParams : Params)
    (nb : Neighborhood) :
    ∃ c3 c4 : Constrians, Reachable al c3 ∧ Reachable al c4 ∧ 0 ≤ c3.n ∧ c3.n ≤ 3 ∧
      (if c3.n < 3 then Add_shape_optimization_constrians al c3 nb.lLink
        else Except.ok c3) = .ok c4 ∧
      accumulate LT_product al mParams nb = .ok c4 := by
  obtain ⟨c1, c2, c3, c4, e1, e2, e3, e4, hacc, ⟨h1, h2, h3, h4, h5⟩, _, _, _⟩ :=
    accumulate_stages LT_product al mParams nb
  have r1 : Reachable al c1 := by
    cases hb : nb.lBdry with
    | none =>
      rw [hb] at e1
      simp only at e1
      injection e1 with e1
      rw [← e1]
      exact Reachable.empty
    | some bd =>
      rw [hb] at e1
      simp only at e1
      unfold Add_boundary_preservation_constrians at e1
      exact Reachable.from_gradient _ _ _ _ Reachable.empty e1
  have r2 : Reachable al c2 := by
    rw [← e2]
    split_ifs
    · unfold Add_volume_preservation_constrians
      exact Reachable.add_if _ _ _ r1
    · exact r1
  have r3 : Reachable al c3 := by
    split_ifs at e3 with h
    · unfold Add_boundary_and_volume_optimization_constrians at e3
      exact Reachable.from_gradient _ _ _ _ r2 e3
    · injection e3 with e3
      rw [← e3]
      exact r2
  have r4 : Reachable al c4 := by
    have e4b := e4
    split_ifs at e4b with h
    · unfold Add_shape_optimization_constrians at e4b
      exact Reachable.from_gradient _ _ _ _ r3 e4b
    · injection e4b with e4b
      rw [← e4b]
      exact r3
  exact ⟨c3, c4, r3, r4, by omega, by omega, e4, hacc⟩

/-- C21: for every neighbourhood with a non-empty link and thresholds
`0 <= cos^2(alpha) < 1`, `0 <= sin^2(alpha) < 1`, the accumulation pass ends with
`n == 3` and the constructor returns a point; and whatever `n` in {0,1,2} a
reachable system has when the shape-optimization family is entered, every row
the family offers from `H = |Link| * I` is accepted, so that it returns a full
system. -/
theorem shape_family_completes (LT_product : CVector → CMatrix) (al : Alpha)
    (mParams : Params) (nb : Neighborhood) (hl : nb.lLink ≠ [])
    (hc0 : 0 ≤ al.squared_cos_alpha) (hc1 : al.squared_cos_alpha < 1)
    (hs0 : 0 ≤ al.squared_sin_alpha) (hs1 : al.squared_sin_alpha < 1) :
    (∃ cs p, accumulate LT_product al mParams nb = .ok cs ∧ cs.n = 3 ∧
      solve cs = some p ∧ LindstromTurkImpl LT_product al mParams nb = .ok (some p)) ∧
    (∀ cs : Constrians, Reachable al cs → cs.n ≤ 2 →
      ∃ r, Add_shape_optimization_constrians al cs nb.lLink = .ok r ∧ r.n = 3 ∧
        (cs.n = 0 → r.A = ⟨⟨(nb.lLink.length : FT), 0, 0⟩, ⟨0, (nb.lLink.length : FT), 0⟩,
          ⟨0, 0, (nb.lLink.length : FT)⟩⟩) ∧
        (cs.n = 1 → r.A = ⟨cs.A.r0, smul (nb.lLink.length : FT) (gradient_Q0 cs.A.r0),
          smul (nb.lLink.length : FT) (cross_product cs.A.r0 (gradient_Q0 cs.A.r0))⟩) ∧
        (cs.n = 2 → r.A = ⟨cs.A.r0, cs.A.r1,
          smul (nb.lLink.length : FT) (cross_product cs.A.r0 cs.A.r1)⟩)) := by
  have hfill : ∀ cs : Constrians, Reachable al cs → cs.n ≤ 2 →
      ∃ r, Add_shape_optimization_constrians al cs nb.lLink = .ok r ∧ r.n = 3 ∧
        (cs.n = 0 → r.A = ⟨⟨(nb.lLink.length : FT), 0, 0⟩, ⟨0, (nb.lLink.length : FT), 0⟩,
          ⟨0, 0, (nb.lLink.length : FT)⟩⟩) ∧
        (cs.n = 1 → r.A = ⟨cs.A.r0, smul (nb.lLink.length : FT) (gradient_Q0 cs.A.r0),
          smul (nb.lLink.length : FT) (cross_product cs.A.r0 (gradient_Q0 cs.A.r0))⟩) ∧
        (cs.n = 2 → r.A = ⟨cs.A.r0, cs.A.r1,
          smul (nb.lLink.length : FT) (cross_product cs.A.r0 cs.A.r1)⟩) :=
    fun cs hr h2 => shape_family_fills al cs nb.lLink (reachable_compatible al cs hr)
      (reachable_row1 al cs hr) h2 hl hc0 hc1 hs1
  refine ⟨?_, hfill⟩
  obtain ⟨c3, c4, r3, r4, h30, h33, e4, hacc⟩ :=
    accumulate_reachable LT_product al mParams nb
  have hn4 : c4.n = 3 := by
    by_cases h : c3.n < 3
    · rw [if_pos h] at e4
      obtain ⟨r, hr, hr3, _⟩ := hfill c3 r3 (by omega)
      rw [hr] at e4
      injection e4 with e4
      rw [← e4]
      exact hr3
    · rw [if_neg h] at e4
      injection e4 with e4
      rw [← e4]
      omega
  obtain ⟨_, _, _, k3⟩ := reachable_compatible al c4 r4
  have hlt := k3 (by omega)
  have hd : determinant c4.A ≠ 0 := by
    unfold determinant
    intro hz
    rw [hz] at hlt
    have := mul_nonneg (mul_nonneg (dot_self_nonneg (cross_product c4.A.r0 c4.A.r1))
      (dot_self_nonneg c4.A.r2)) hs0
    linarith
  have hsome : ∃ p, solve c4 = some p := by
    simp [solve, hn4, inverse_matrix, hd]
  obtain ⟨p, hp⟩ := hsome
  refine ⟨c4, p, hacc, hn4, hp, ?_⟩
  simp [LindstromTurkImpl, hacc, hp]

/-- Witness of C21 on `hole_neighborhood` with both thresholds 1/2. -/
theorem shape_family_completes_witness :
    ∃ cs p, accumulate LT_product_model ⟨1 / 2, 1 / 2⟩ ⟨1, 1⟩ hole_neighborhood = .ok cs ∧
      cs.n = 3 ∧ solve cs = some p ∧
      LindstromTurkImpl LT_product_model ⟨1 / 2, 1 / 2⟩ ⟨1, 1⟩ hole_neighborhood =
        .ok (some p) :=
  (shape_family_completes LT_product_model ⟨1 / 2, 1 / 2⟩ ⟨1, 1⟩ hole_neighborhood
    (by simp [hole_neighborhood]) (by norm_num) (by norm_num) (by norm_num) (by norm_num)).1

/-! ## The length test in `double` -/

theorem exact_double_filter (al : Alpha) (cs : Constrians) (Ai : CVector) (bi : FT) :
    Add_if_alpha_compatible_double (exact_double al) cs Ai bi =
      Add_if_alpha_compatible al cs Ai bi := by
  unfold Add_if_alpha_compatible_double Add_if_alpha_compatible lAddIt_double lAddIt
    exact_double
  simp only [decide_eq_true_eq]

/-- C6 (amended): a candidate whose squared length converts to a double that
is not greater than `0.0`, in particular a candidate of zero squared length,
is rejected in every state (the system is unchanged); on the empty system a
candidate is stored as row 0 if and only if the double of its squared length
is greater than `0.0`, whatever the thresholds; over exact arithmetic that is
the case exactly when the squared length is non-zero. -/
theorem nonpositive_length_rejected (dm : DoubleModel) (al : Alpha) (cs : Constrians)
    (Ai : CVector) (bi : FT) :
    (dot Ai Ai = 0 → Add_if_alpha_compatible_double dm cs Ai bi = cs) ∧
    (dm.gt (dm.to_double (dot Ai Ai)) dm.zero = false →
      Add_if_alpha_compatible_double dm cs Ai bi = cs) ∧
    (cs.n = 0 →
      (Add_if_alpha_compatible_double dm cs Ai bi =
          ⟨1, ⟨Ai, cs.A.r1, cs.A.r2⟩, ⟨bi, cs.b.y, cs.b.z⟩⟩ ↔
        dm.gt (dm.to_double (dot Ai Ai)) dm.zero = true)) ∧
    (cs.n = 0 →
      (Add_if_alpha_compatible_double (exact_double al) cs Ai bi =
          ⟨1, ⟨Ai, cs.A.r1, cs.A.r2⟩, ⟨bi, cs.b.y, cs.b.z⟩⟩ ↔ dot Ai Ai ≠ 0)) := by
  have hrej : dm.gt (dm.to_double (dot Ai Ai)) dm.zero = false →
      Add_if_alpha_compatible_double dm cs Ai bi = cs := by
    intro h
    simp [Add_if_alpha_compatible_double, h]
  have hacc : ∀ d : DoubleModel, cs.n = 0 →
      (Add_if_alpha_compatible_double d cs Ai bi =
          ⟨1, ⟨Ai, cs.A.r1, cs.A.r2⟩, ⟨bi, cs.b.y, cs.b.z⟩⟩ ↔
        d.gt (d.to_double (dot Ai Ai)) d.zero = true) := by
    intro d hn
    obtain ⟨n, A, b⟩ := cs
    simp only at hn
    subst hn
    by_cases hg : d.gt (d.to_double (dot Ai Ai)) d.zero = true
    · simp [Add_if_alpha_compatible_double, hg, lAddIt_double, store]
    · simp [Add_if_alpha_compatible_double, hg]
  refine ⟨fun h => hrej ?_, hrej, hacc dm, fun hn => ?_⟩
  · rw [h]
    exact dm.zero_not_gt
  · rw [hacc (exact_double al) hn]
    simp only [exact_double, to_double, decide_eq_true_eq]
    constructor
    · intro h
      exact ne_of_gt h
    · intro h
      exact lt_of_le_of_ne (dot_self_nonneg Ai) (Ne.symm h)

/-- Witness of the amended C6 over exact arithmetic: the zero row is rejected
by a system with one row, and the row (0,0,2) is stored as row 0 of the empty
system. -/
theorem nonpositive_length_rejected_witness :
    Add_if_alpha_compatible_double (exact_double ⟨1, 0⟩)
        ⟨1, ⟨⟨1, 0, 0⟩, NULL_VECTOR, NULL_VECTOR⟩, ⟨7, 0, 0⟩⟩ ⟨0, 0, 0⟩ 5 =
      ⟨1, ⟨⟨1, 0, 0⟩, NULL_VECTOR, NULL_VECTOR⟩, ⟨7, 0, 0⟩⟩ ∧
    Add_if_alpha_compatible_double (exact_double ⟨0, 1⟩) Constrians.empty ⟨0, 0, 2⟩ 5 =
      ⟨1, ⟨⟨0, 0, 2⟩, NULL_VECTOR, NULL_VECTOR⟩, ⟨5, 0, 0⟩⟩ :=
  ⟨(nonpositive_length_rejected (exact_double ⟨1, 0⟩) ⟨1, 0⟩
      ⟨1, ⟨⟨1, 0, 0⟩, NULL_VECTOR, NULL_VECTOR⟩, ⟨7, 0, 0⟩⟩ ⟨0, 0, 0⟩ 5).1 (by norm_num [dot]),
   ((nonpositive_length_rejected (exact_double ⟨0, 1⟩) ⟨0, 1⟩ Constrians.empty
      ⟨0, 0, 2⟩ 5).2.2.2 rfl).mpr (by norm_num [dot])⟩

/-- C6 (as stated, refuted): the row `(2^-600, 0, 0)` has the non-zero squared
length `2^-1200`, which converts to the double zero; offered to the empty
system it is rejected and the system stays empty. -/
theorem underflowing_row_rejected :
    dot (⟨(1 / 2) ^ 600, 0, 0⟩ : CVector) ⟨(1 / 2) ^ 600, 0, 0⟩ = (1 / 2) ^ 1200 ∧
    dot (⟨(1 / 2) ^ 600, 0, 0⟩ : CVector) ⟨(1 / 2) ^ 600, 0, 0⟩ ≠ 0 ∧
    (underflow_double ⟨1 / 2, 1 / 2⟩).to_double ((1 / 2) ^ 1200) =
      (underflow_double ⟨1 / 2, 1 / 2⟩).zero ∧
    Add_if_alpha_compatible_double (underflow_double ⟨1 / 2, 1 / 2⟩) Constrians.empty
      ⟨(1 / 2) ^ 600, 0, 0⟩ 5 = Constrians.empty := by
  have hd : dot (⟨(1 / 2) ^ 600, 0, 0⟩ : CVector) ⟨(1 / 2) ^ 600, 0, 0⟩ = (1 / 2) ^ 1200 := by
    simp only [dot]
    rw [mul_zero, add_zero, add_zero, ← pow_add]
  have hlt : |((1 : FT) / 2) ^ 1200| < (1 / 2) ^ 1075 := by
    rw [abs_of_pos (by positivity)]
    exact pow_lt_pow_right_of_lt_one₀ (by norm_num) (by norm_num) (by norm_num)
  have hc : (underflow_double ⟨1 / 2, 1 / 2⟩).to_double ((1 / 2) ^ 1200) =
      (underflow_double ⟨1 / 2, 1 / 2⟩).zero := by
    simp only [underflow_double]
    rw [if_pos hlt]
  refine ⟨hd, ?_, hc, ?_⟩
  · rw [hd]
    positivity
  · have hg : (underflow_double ⟨1 / 2, 1 / 2⟩).gt
        ((underflow_double ⟨1 / 2, 1 / 2⟩).to_double
          (dot (⟨(1 / 2) ^ 600, 0, 0⟩ : CVector) ⟨(1 / 2) ^ 600, 0, 0⟩))
        (underflow_double ⟨1 / 2, 1 / 2⟩).zero = false := by
      rw [hd, hc]
      simp [underflow_double]
    simp only [Add_if_alpha_compatible_double, hg]
    rfl

/-! ## The invariant and the boundary family on concrete systems -/

/-- C12 (as stated, refuted): the empty system is reachable, by no call at
all, and its row 0 is the null vector, of zero length. -/
theorem empty_system_row0_zero :
    Reachable ⟨1 / 2, 1 / 4⟩ Constrians.empty ∧
    Constrians.empty.n = 0 ∧
    Constrians.empty.A.r0 = NULL_VECTOR ∧
    dot Constrians.empty.A.r0 Constrians.empty.A.r0 = 0 :=
  ⟨Reachable.empty, rfl, rfl, null_dot_null⟩

/-- Witness of the amended C12: offering (1,0,0), (1,1,0) and (0,1,1) to the
empty system with `cos^2(alpha) = 1/2` and `sin^2(alpha) = 1/4` gives a reachable
full system; its row 0 is non-zero, rows 0 and 1 meet the cosine bound (with
equality, 1 <= 1) and the three rows meet the strict sine bound (1 > 1/2). -/
theorem compatibility_invariant_witness :
    Add_if_alpha_compatible ⟨1 / 2, 1 / 4⟩ (Add_if_alpha_compatible ⟨1 / 2, 1 / 4⟩
        (Add_if_alpha_compatible ⟨1 / 2, 1 / 4⟩ Constrians.empty ⟨1, 0, 0⟩ 1) ⟨1, 1, 0⟩ 2)
        ⟨0, 1, 1⟩ 3 = ⟨3, ⟨⟨1, 0, 0⟩, ⟨1, 1, 0⟩, ⟨0, 1, 1⟩⟩, ⟨1, 2, 3⟩⟩ ∧
    (⟨1, 0, 0⟩ : CVector) ≠ NULL_VECTOR ∧
    (dot (⟨1, 0, 0⟩ : CVector) ⟨1, 1, 0⟩) ^ 2 ≤
      dot (⟨1, 0, 0⟩ : CVector) ⟨1, 0, 0⟩ * dot (⟨1, 1, 0⟩ : CVector) ⟨1, 1, 0⟩ * (1 / 2) ∧
    (dot (cross_product ⟨1, 0, 0⟩ ⟨1, 1, 0⟩) ⟨0, 1, 1⟩) ^ 2 >
      dot (cross_product ⟨1, 0, 0⟩ ⟨1, 1, 0⟩) (cross_product ⟨1, 0, 0⟩ ⟨1, 1, 0⟩) *
        dot (⟨0, 1, 1⟩ : CVector) ⟨0, 1, 1⟩ * (1 / 4) :=
  have e : Add_if_alpha_compatible ⟨1 / 2, 1 / 4⟩ (Add_if_alpha_compatible ⟨1 / 2, 1 / 4⟩
        (Add_if_alpha_compatible ⟨1 / 2, 1 / 4⟩ Constrians.empty ⟨1, 0, 0⟩ 1) ⟨1, 1, 0⟩ 2)
        ⟨0, 1, 1⟩ 3 = ⟨3, ⟨⟨1, 0, 0⟩, ⟨1, 1, 0⟩, ⟨0, 1, 1⟩⟩, ⟨1, 2, 3⟩⟩ := by
    norm_num [Add_if_alpha_compatible, lAddIt, store, dot, cross_product, to_double,
      Constrians.empty, NULL_VECTOR, NULL_MATRIX]
  have h := compatibility_invariant ⟨1 / 2, 1 / 4⟩
    ⟨3, ⟨⟨1, 0, 0⟩, ⟨1, 1, 0⟩, ⟨0, 1, 1⟩⟩, ⟨1, 2, 3⟩⟩
    (e ▸ Reachable.add_if _ _ _ (Reachable.add_if _ _ _
      (Reachable.add_if _ _ _ Reachable.empty)))
  ⟨e, h.1 (by norm_num), h.2.1 (by norm_num), h.2.2 rfl⟩

end LT
